import Mathlib

/-!
Verification of the bayer2tga pipeline (src/bayer2tga.c) against its
natural-language specification.

The C program converts a raw Bayer RG10 sensor frame into an 8-bit BGR
image with a TGA header.  The pixel pipeline is:

  read_file -> normalize_frame (min_max_frame + in-place rescale)
            -> debayer -> write_tga

The C source performs its arithmetic in IEEE-754 binary32 (`float`) with
round-to-nearest-even (`FLT_EVAL_METHOD = 0`, no excess precision), so we
embed an exact integer model of the binary32 operations actually used:
division of two small exact integers, multiplication of an exact small
integer by a float, `round` (half away from zero) and truncating
conversions to the unsigned integer destination types.  Division by zero
yields +inf, `0 * inf` yields NaN, and converting NaN (or an out-of-range
value) to an unsigned integer type is undefined behaviour; these are
modelled by an extended float type and `Option` results.

The frame geometry (`WIDTH`, `HEIGHT`) is a pair of compile-time macros in
the source; all definitions here take the two dimensions as parameters and
the configured values 1920 and 1080 are instantiated where a claim fixes
them.  Buffers are flat `List Nat` values indexed exactly by the C macros
`RG10_LOCATION` / `RGB_LOCATION`.
-/

/-- Floor of log2 with explicit fuel (structural recursion, so the kernel
can evaluate it).  `lg2 fuel n` equals `Nat.log2 n` whenever `n < 2 ^ fuel`. -/
def lg2 (fuel n : Nat) : Nat :=
  match fuel with
  | 0 => 0
  | fuel + 1 => if n < 2 then 0 else lg2 fuel (n / 2) + 1

/-- Round `n / d` to the nearest integer, ties to even (the IEEE-754
default rounding used by the hardware float divide). -/
def rneFrac (n d : Nat) : Nat :=
  let q := n / d
  let r := n % d
  if d < 2 * r then q + 1
  else if 2 * r < d then q
  else if q % 2 = 0 then q else q + 1

/-- Round `m / 2 ^ k` to the nearest integer, ties to even. -/
def rneShift (m k : Nat) : Nat :=
  if k = 0 then m
  else
    let q := m / 2 ^ k
    let r := m % 2 ^ k
    let h := 2 ^ (k - 1)
    if h < r then q + 1
    else if r < h then q
    else if q % 2 = 0 then q else q + 1

/-- A finite nonnegative binary32 value, as `num * 2 ^ exp`.
`num` is kept below `2 ^ 24` by the operations that produce one
(up to the harmless carry `num = 2 ^ 24`). -/
structure F32 where
  num : Nat
  exp : Int
  deriving Repr, DecidableEq

/-- Exact rational value of a finite float. -/
def F32.val (f : F32) : ℚ := (f.num : ℚ) * (2 : ℚ) ^ f.exp

/-- Binary32 division `fl(a / b)` of two exactly representable naturals,
`1 ≤ a < 2 ^ 10`, `1 ≤ b < 2 ^ 26` (the only shapes the program divides:
`255.0f / 1023.0f` and `1023.0f / (max - min)`).  The quotient is scaled so
that 24 significant bits remain after rounding to nearest, ties to even. -/
def fdiv (a b : Nat) : F32 :=
  let L := lg2 64 (a * 2 ^ 26 / b)
  ⟨rneFrac (a * 2 ^ (49 - L)) b, (L : Int) - 49⟩

/-- Binary32 multiplication of an exactly representable natural `w < 2 ^ 24`
(the C `int` operand after conversion to `float`) by a finite float. -/
def fmulN (w : Nat) (f : F32) : F32 :=
  let P := w * f.num
  if P < 2 ^ 24 then ⟨P, f.exp⟩
  else
    let k := lg2 64 P - 23
    ⟨rneShift P k, f.exp + k⟩

/-- A binary32 value as produced by this program: finite nonnegative,
+infinity (from division by zero), or NaN (from `0 * inf`). -/
inductive EF32 where
  | fin (f : F32)
  | inf
  | nan
  deriving Repr, DecidableEq

/-- `fl(a / b)` including the zero divisor: IEEE-754 `a / 0.0` is +inf for
`a ≠ 0` (and NaN for `0 / 0`). -/
def fdivE (a b : Nat) : EF32 :=
  if b = 0 then (if a = 0 then .nan else .inf) else .fin (fdiv a b)

/-- Multiplication of an exact natural by an extended float:
`0 * inf = NaN`, `w * inf = inf` otherwise, NaN propagates. -/
def fmulNE (w : Nat) (f : EF32) : EF32 :=
  match f with
  | .fin g => .fin (fmulN w g)
  | .inf => if w = 0 then .nan else .inf
  | .nan => .nan

/-- Truncation (toward zero) of a finite nonnegative float to a natural. -/
def ftruncN (f : F32) : Nat :=
  if 0 ≤ f.exp then f.num * 2 ^ f.exp.toNat else f.num / 2 ^ (-f.exp).toNat

/-- C `round` (half away from zero) of a finite nonnegative float:
`floor(x + 1/2)`. -/
def froundN (f : F32) : Nat :=
  if 0 ≤ f.exp then f.num * 2 ^ f.exp.toNat
  else (2 * f.num + 2 ^ (-f.exp).toNat) / 2 ^ ((-f.exp).toNat + 1)

/-- Conversion of a float to `uint8_t` (C cast: truncation; undefined when
the truncated value is not representable). -/
def truncU8 (f : F32) : Option Nat :=
  if ftruncN f < 256 then some (ftruncN f) else none

/-- `(uint16_t)round(x)` for an extended float: undefined for NaN, inf and
out-of-range values. -/
def roundU16E (f : EF32) : Option Nat :=
  match f with
  | .fin g => if froundN g < 65536 then some (froundN g) else none
  | .inf => none
  | .nan => none

/-- `MAX_RG10 = (1 << RG10_BITS) - 1 = 1023`. -/
def MAX_RG10 : Nat := 2 ^ 10 - 1

/-- `MAX_RGB = (1 << RGB_BITS) - 1 = 255`. -/
def MAX_RGB : Nat := 2 ^ 8 - 1

/-- The constant `(float)MAX_RGB / MAX_RG10` of the `NORM` macro. -/
def normConst : F32 := fdiv MAX_RGB MAX_RG10

/-- `NORM(V)` as stored into a `uint8_t` slot of the output image:
`(uint8_t)(V * ((float)MAX_RGB / MAX_RG10))`. -/
def NORM (v : Nat) : Option Nat := truncU8 (fmulN v normConst)

/-- `RG10_COLORS`: samples per 2x2 mosaic block. -/
def RG10_COLORS : Nat := 4

/-- `RGB_COLORS`: channels per output pixel. -/
def RGB_COLORS : Nat := 3

/-- `RG10_COLOR_SIZE`: bytes per RG10 sample (also the per-`x` stride of
the location macro, in 16-bit sample units). -/
def RG10_COLOR_SIZE : Nat := 2

/-- `RG10_R`: offset of the red sample inside a mosaic block. -/
def rg10_R : Nat := 0

/-- `RG10_Gr = RG10_R + 1`: offset of the green sample of the red row. -/
def rg10_Gr : Nat := rg10_R + 1

/-- `RG10_Gb = WIDTH * RG10_COLOR_SIZE`: offset of the green sample of the
blue row (one sensor row down). -/
def rg10_Gb (W : Nat) : Nat := W * RG10_COLOR_SIZE

/-- `RG10_B = RG10_Gb + 1`: offset of the blue sample. -/
def rg10_B (W : Nat) : Nat := rg10_Gb W + 1

/-- `RGB_R = 2`: red channel offset inside an output pixel. -/
def RGB_R : Nat := 2

/-- `RGB_G = 1`: green channel offset inside an output pixel. -/
def RGB_G : Nat := 1

/-- `RGB_B = 0`: blue channel offset inside an output pixel. -/
def RGB_B : Nat := 0

/-- `RG10_LOCATION(X, Y, COLOR) = Y*WIDTH*RG10_COLORS + X*RG10_COLOR_SIZE + COLOR`,
an index into the flat `uint16_t` sample buffer. -/
def RG10_LOCATION (W x y c : Nat) : Nat := y * W * RG10_COLORS + x * RG10_COLOR_SIZE + c

/-- `RGB_LOCATION(X, Y, COLOR) = Y*WIDTH*RGB_COLORS + X*RGB_COLORS + COLOR`,
an index into the flat `uint8_t` image buffer. -/
def RGB_LOCATION (W x y c : Nat) : Nat := y * W * RGB_COLORS + x * RGB_COLORS + c

/-- The input sample indices touched by `min_max_frame`, in its iteration
order (for each `y`, for each `x`: Gb, Gr, B, R). -/
def mm_locs (W H : Nat) : List Nat :=
  (List.range H).flatMap fun y => (List.range W).flatMap fun x =>
    [RG10_LOCATION W x y (rg10_Gb W), RG10_LOCATION W x y rg10_Gr,
     RG10_LOCATION W x y (rg10_B W), RG10_LOCATION W x y rg10_R]

/-- `min_max_frame`: scan every sample, tracking the running minimum and
maximum, starting from `*min = 65535`, `*max = 0`.  The C body updates the
two accumulators independently, so folding the joint pair over the samples
in scan order is the same computation. -/
def min_max_frame (W H : Nat) (buf : List Nat) : Nat × Nat :=
  (mm_locs W H).foldl
    (fun s i =>
      let v := buf.getD i 0
      (if v < s.1 then v else s.1, if s.2 < v then v else s.2))
    (65535, 0)

/-- The input sample indices written by `normalize_frame`, in its iteration
order (for each `y`, for each `x`: Gb, Gr, R, B). -/
def norm_locs (W H : Nat) : List Nat :=
  (List.range H).flatMap fun y => (List.range W).flatMap fun x =>
    [RG10_LOCATION W x y (rg10_Gb W), RG10_LOCATION W x y rg10_Gr,
     RG10_LOCATION W x y rg10_R, RG10_LOCATION W x y (rg10_B W)]

/-- One in-place update of `normalize_frame`:
`*(buffer + location) = round((*(buffer + location) - min) * mult)` with
`mult = 1023 / ((float)max - (float)min)`.  Both operands of the float
subtraction are exact, and the `int` difference `v - min` is nonnegative
whenever `min` really is the frame minimum, so natural subtraction agrees
with the C arithmetic there.  The store is a `uint16_t` conversion. -/
def normalize_sample (mn mx v : Nat) : Option Nat :=
  roundU16E (fmulNE (v - mn) (fdivE MAX_RG10 (mx - mn)))

/-- Fold a list of in-place updates `b[i] = g b[i]` over a buffer, in
order; `none` (undefined behaviour) propagates. -/
def updAllO (g : Nat → Option Nat) (idxs : List Nat) (buf : List Nat) : Option (List Nat) :=
  idxs.foldl
    (fun acc i => acc.bind fun b => (g (b.getD i 0)).map fun v => b.set i v)
    (some buf)

/-- `normalize_frame`: compute the frame minimum and maximum, then rescale
every sample in place. -/
def normalize_frame (W H : Nat) (buf : List Nat) : Option (List Nat) :=
  let mm := min_max_frame W H buf
  updAllO (normalize_sample mm.1 mm.2) (norm_locs W H) buf

/-- The output writes performed by `debayer`, in its iteration order (for
each `y`, for each `x`: the R store, the B store, the G store).  Every
value is read from the input buffer `buf`, never from the image being
written. -/
def debayer_writes (W H : Nat) (buf : List Nat) : List (Nat × Option Nat) :=
  (List.range H).flatMap fun y => (List.range W).flatMap fun x =>
    [(RGB_LOCATION W x y RGB_R, NORM (buf.getD (RG10_LOCATION W x y rg10_R) 0)),
     (RGB_LOCATION W x y RGB_B, NORM (buf.getD (RG10_LOCATION W x y (rg10_B W)) 0)),
     (RGB_LOCATION W x y RGB_G,
       NORM ((buf.getD (RG10_LOCATION W x y (rg10_Gb W)) 0 +
              buf.getD (RG10_LOCATION W x y rg10_Gr) 0) / 2))]

/-- Fold a list of stores `b[i] = v` over a buffer, in order; a `none`
value (undefined conversion) propagates. -/
def setAllO (ws : List (Nat × Option Nat)) (buf : List Nat) : Option (List Nat) :=
  ws.foldl (fun acc p => acc.bind fun b => p.2.map fun v => b.set p.1 v) (some buf)

/-- `debayer`: allocate the `WIDTH*HEIGHT*RGB_COLORS` output image and
store the three channels of every pixel.  The `malloc` result is modelled
as a zero list; every cell is overwritten (proved below), so the initial
content never reaches the output. -/
def debayer (W H : Nat) (buf : List Nat) : Option (List Nat) :=
  setAllO (debayer_writes W H buf) (List.replicate (W * H * RGB_COLORS) 0)

/-- The 18-byte TGA header: zero-initialised, then
`[2]=2, [12]=255&W, [13]=255&(W>>8), [14]=255&H, [15]=255&(H>>8), [16]=24, [17]=32`. -/
def tga_header (W H : Nat) : List Nat :=
  ((((((((List.replicate 18 0).set 2 2).set 12 (255 &&& W)).set 13
    (255 &&& (W >>> 8))).set 14 (255 &&& H)).set 15 (255 &&& (H >>> 8))).set 16
    24).set 17 32)

/-- The byte stream written by `write_tga`: the header, then the
`RGB_SIZE = WIDTH*HEIGHT*RGB_COLORS` image bytes (`fwrite` writes exactly
the image buffer, whose length is `WIDTH*HEIGHT*RGB_COLORS`). -/
def write_tga (W H : Nat) (image : List Nat) : List Nat :=
  tga_header W H ++ image

/-- Modelled from the spec: re-parse the width from the header bytes
(bytes 12 and 13, little-endian 16-bit), for the geometry round trip. -/
def parse_tga_width (bytes : List Nat) : Nat := bytes.getD 12 0 + 256 * bytes.getD 13 0

/-- Modelled from the spec: re-parse the height from the header bytes
(bytes 14 and 15, little-endian 16-bit). -/
def parse_tga_height (bytes : List Nat) : Nat := bytes.getD 14 0 + 256 * bytes.getD 15 0

/-- Observable outcome of one run of the process: exit code, diagnostics
on the error stream, and the output file contents (if one was written). -/
structure ProcResult where
  exitCode : Int
  errOutput : List String
  outFile : Option (List Nat)
  deriving Repr, DecidableEq

/-- `read_file`: opening the input may fail (modelled by the `ok` oracle);
on failure the process prints a diagnostic and exits with `-1` before any
pipeline work.  On success the raw frame is returned. -/
def read_file (ok : Bool) (raw : List Nat) : Except String (List Nat) :=
  if ok then .ok raw else .error "Unable to open file for reading."

/-- The file-opening part of `write_tga`: opening the output may fail, in
which case the process prints a diagnostic and exits with `-1`. -/
def write_tga_file (ok : Bool) (W H : Nat) (image : List Nat) : Except String (List Nat) :=
  if ok then .ok (write_tga W H image) else .error "Unable to open file for writing."

/-- `main`: read, normalize, debayer, write, in sequence; `exit(-1)` with
a diagnostic on either open failure, exit code `0` on success.  A `none`
result models undefined behaviour inside the pixel pipeline. -/
def main_model (W H : Nat) (inOk outOk : Bool) (raw : List Nat) : Option ProcResult :=
  match read_file inOk raw with
  | .error e => some ⟨-1, [e], none⟩
  | .ok buffer =>
    match normalize_frame W H buffer with
    | none => none
    | some nbuf =>
      match debayer W H nbuf with
      | none => none
      | some image =>
        match write_tga_file outOk W H image with
        | .error e => some ⟨-1, [e], none⟩
        | .ok bytes => some ⟨0, [], some bytes⟩

/-! ## Generic lemmas about the buffer folds -/

theorem getD_set_ne {α : Type} (l : List α) (i j : Nat) (a d : α) (h : i ≠ j) :
    (l.set i a).getD j d = l.getD j d := by
  simp only [List.getD_eq_getElem?_getD, List.getElem?_set, if_neg h]

theorem getD_set_self {α : Type} (l : List α) (i : Nat) (a d : α) (h : i < l.length) :
    (l.set i a).getD i d = a := by
  simp [List.getD_eq_getElem?_getD, List.getElem?_set, h]

theorem bind_foldl_none {α β : Type} (F : β → α → Option α) (l : List β) :
    l.foldl (fun acc i => acc.bind (fun b => F i b)) none = none := by
  induction l with
  | nil => rfl
  | cons i rest ih => simpa using ih

theorem updAllO_cons_none (g : Nat → Option Nat) (i : Nat) (rest : List Nat)
    (buf : List Nat) (h : g (buf.getD i 0) = none) :
    updAllO g (i :: rest) buf = none := by
  show List.foldl _ ((some buf).bind fun b => (g (b.getD i 0)).map fun v => b.set i v) rest = none
  rw [Option.some_bind, h, Option.map_none']
  exact bind_foldl_none _ rest

theorem updAllO_cons_some (g : Nat → Option Nat) (i : Nat) (rest : List Nat)
    (buf : List Nat) (v : Nat) (h : g (buf.getD i 0) = some v) :
    updAllO g (i :: rest) buf = updAllO g rest (buf.set i v) := by
  show List.foldl _ ((some buf).bind fun b => (g (b.getD i 0)).map fun v => b.set i v) rest = _
  rw [Option.some_bind, h, Option.map_some']
  rfl

theorem updAllO_sound (g : Nat → Option Nat) :
    ∀ (idxs : List Nat) (buf : List Nat), idxs.Nodup →
      (∀ i ∈ idxs, i < buf.length ∧ (g (buf.getD i 0)).isSome) →
      ∃ out, updAllO g idxs buf = some out ∧ out.length = buf.length ∧
        ∀ j, out.getD j 0 = if j ∈ idxs then (g (buf.getD j 0)).getD 0 else buf.getD j 0 := by
  intro idxs
  induction idxs with
  | nil =>
    intro buf _ _
    exact ⟨buf, rfl, rfl, fun j => by simp⟩
  | cons i rest ih =>
    intro buf hnd hok
    obtain ⟨hilen, hisome⟩ := hok i (List.mem_cons_self i rest)
    obtain ⟨v, hv⟩ := Option.isSome_iff_exists.mp hisome
    have hnot : i ∉ rest := (List.nodup_cons.mp hnd).1
    have hndr : rest.Nodup := (List.nodup_cons.mp hnd).2
    have hset : ∀ j, j ≠ i → (buf.set i v).getD j 0 = buf.getD j 0 := by
      intro j hj
      exact getD_set_ne buf i j v 0 (fun h => hj h.symm)
    have hyp : ∀ i' ∈ rest, i' < (buf.set i v).length ∧ (g ((buf.set i v).getD i' 0)).isSome := by
      intro i' hi'
      obtain ⟨h1, h2⟩ := hok i' (List.mem_cons_of_mem i hi')
      refine ⟨by simpa using h1, ?_⟩
      rw [hset i' (fun h => hnot (h ▸ hi'))]
      exact h2
    obtain ⟨out, hout, hlen, hget⟩ := ih (buf.set i v) hndr hyp
    refine ⟨out, ?_, by simpa using hlen, ?_⟩
    · rw [updAllO_cons_some g i rest buf v hv]
      exact hout
    · intro j
      rcases Decidable.em (j = i) with rfl | hji
      · have h1 : out.getD j 0 = (buf.set j v).getD j 0 := by
          rw [hget j, if_neg hnot]
        rw [h1, getD_set_self buf j v 0 hilen, if_pos (List.mem_cons_self j rest), hv]
        rfl
      · rw [hget j]
        rcases Decidable.em (j ∈ rest) with hjr | hjr
        · rw [if_pos hjr, hset j hji, if_pos (List.mem_cons_of_mem i hjr)]
        · rw [if_neg hjr, hset j hji]
          rw [if_neg (by simp only [List.mem_cons]; push_neg; exact ⟨hji, hjr⟩)]

theorem setAllO_cons_some (i : Nat) (ov : Option Nat) (rest : List (Nat × Option Nat))
    (buf : List Nat) (v : Nat) (h : ov = some v) :
    setAllO ((i, ov) :: rest) buf = setAllO rest (buf.set i v) := by
  show List.foldl _ ((some buf).bind fun b => ov.map fun v => b.set i v) rest = _
  rw [Option.some_bind, h, Option.map_some']
  rfl

theorem setAllO_sound :
    ∀ (ws : List (Nat × Option Nat)) (buf : List Nat),
      (ws.map Prod.fst).Nodup →
      (∀ p ∈ ws, p.1 < buf.length ∧ p.2.isSome) →
      ∃ out, setAllO ws buf = some out ∧ out.length = buf.length ∧
        (∀ p ∈ ws, out.getD p.1 0 = p.2.getD 0) ∧
        (∀ j, j ∉ ws.map Prod.fst → out.getD j 0 = buf.getD j 0) := by
  intro ws
  induction ws with
  | nil =>
    intro buf _ _
    exact ⟨buf, rfl, rfl, fun p hp => absurd hp (List.not_mem_nil p), fun j _ => rfl⟩
  | cons p rest ih =>
    intro buf hnd hok
    obtain ⟨i, ov⟩ := p
    obtain ⟨hilen, hisome⟩ := hok (i, ov) (List.mem_cons_self _ rest)
    obtain ⟨v, hv⟩ := Option.isSome_iff_exists.mp hisome
    have hnd' : (i :: rest.map Prod.fst).Nodup := by simpa using hnd
    have hnot : i ∉ rest.map Prod.fst := (List.nodup_cons.mp hnd').1
    have hndr : (rest.map Prod.fst).Nodup := (List.nodup_cons.mp hnd').2
    have hyp : ∀ q ∈ rest, q.1 < (buf.set i v).length ∧ q.2.isSome := by
      intro q hq
      obtain ⟨h1, h2⟩ := hok q (List.mem_cons_of_mem _ hq)
      exact ⟨by simpa using h1, h2⟩
    obtain ⟨out, hout, hlen, hgets, hrest⟩ := ih (buf.set i v) hndr hyp
    refine ⟨out, ?_, by simpa using hlen, ?_, ?_⟩
    · rw [setAllO_cons_some i ov rest buf v hv]
      exact hout
    · intro q hq
      rcases List.mem_cons.mp hq with h | hq'
      · subst h
        have h2 : out.getD i 0 = (buf.set i v).getD i 0 := hrest i hnot
        show out.getD i 0 = ov.getD 0
        have hov : ov = some v := hv
        rw [h2, getD_set_self buf i v 0 hilen, hov]
        rfl
      · exact hgets q hq'
    · intro j hj
      have hji : j ≠ i := by
        intro h
        exact hj (by simp [h])
      have hjr : j ∉ rest.map Prod.fst := by
        intro h
        refine hj ?_
        simp only [List.map_cons, List.mem_cons]
        exact Or.inr h
      rw [hrest j hjr, getD_set_ne buf i j v 0 (fun h => hji h.symm)]

theorem foldl_pair_minmax (l : List Nat) (a b : Nat) :
    l.foldl (fun s v => (if v < s.1 then v else s.1, if s.2 < v then v else s.2)) (a, b)
      = (l.foldl (fun m v => if v < m then v else m) a,
         l.foldl (fun m v => if m < v then v else m) b) := by
  induction l generalizing a b with
  | nil => rfl
  | cons v rest ih => exact ih _ _

theorem foldl_min_le_init (l : List Nat) (a : Nat) :
    l.foldl (fun m v => if v < m then v else m) a ≤ a := by
  induction l generalizing a with
  | nil => exact Nat.le_refl a
  | cons v rest ih =>
    rw [List.foldl_cons]
    refine Nat.le_trans (ih _) ?_
    show (if v < a then v else a) ≤ a
    split <;> omega

theorem foldl_min_le_mem (l : List Nat) (a x : Nat) (hx : x ∈ l) :
    l.foldl (fun m v => if v < m then v else m) a ≤ x := by
  induction l generalizing a with
  | nil => exact absurd hx (List.not_mem_nil x)
  | cons v rest ih =>
    rw [List.foldl_cons]
    rcases List.mem_cons.mp hx with rfl | hx'
    · refine Nat.le_trans (foldl_min_le_init rest _) ?_
      show (if x < a then x else a) ≤ x
      split <;> omega
    · exact ih _ hx'

theorem foldl_min_attained (l : List Nat) (a : Nat) :
    l.foldl (fun m v => if v < m then v else m) a = a ∨
      l.foldl (fun m v => if v < m then v else m) a ∈ l := by
  induction l generalizing a with
  | nil => exact Or.inl rfl
  | cons v rest ih =>
    rw [List.foldl_cons]
    rcases ih ((fun m v => if v < m then v else m) a v) with h | h
    · rw [h]
      show (if v < a then v else a) = a ∨ (if v < a then v else a) ∈ v :: rest
      split_ifs with hva
      · exact Or.inr (List.mem_cons_self _ _)
      · exact Or.inl rfl
    · exact Or.inr (List.mem_cons_of_mem _ h)

theorem foldl_max_ge_init (l : List Nat) (a : Nat) :
    a ≤ l.foldl (fun m v => if m < v then v else m) a := by
  induction l generalizing a with
  | nil => exact Nat.le_refl a
  | cons v rest ih =>
    rw [List.foldl_cons]
    refine Nat.le_trans ?_ (ih _)
    show a ≤ (if a < v then v else a)
    split <;> omega

theorem foldl_max_ge_mem (l : List Nat) (a x : Nat) (hx : x ∈ l) :
    x ≤ l.foldl (fun m v => if m < v then v else m) a := by
  induction l generalizing a with
  | nil => exact absurd hx (List.not_mem_nil x)
  | cons v rest ih =>
    rw [List.foldl_cons]
    rcases List.mem_cons.mp hx with rfl | hx'
    · refine Nat.le_trans ?_ (foldl_max_ge_init rest _)
      show x ≤ (if a < x then x else a)
      split <;> omega
    · exact ih _ hx'

theorem foldl_max_attained (l : List Nat) (a : Nat) :
    l.foldl (fun m v => if m < v then v else m) a = a ∨
      l.foldl (fun m v => if m < v then v else m) a ∈ l := by
  induction l generalizing a with
  | nil => exact Or.inl rfl
  | cons v rest ih =>
    rw [List.foldl_cons]
    rcases ih ((fun m v => if m < v then v else m) a v) with h | h
    · rw [h]
      show (if a < v then v else a) = a ∨ (if a < v then v else a) ∈ v :: rest
      split_ifs with hva
      · exact Or.inr (List.mem_cons_self _ _)
      · exact Or.inl rfl
    · exact Or.inr (List.mem_cons_of_mem _ h)

/-! ## Address arithmetic of the location macros -/

theorem loc_R_eq (W x y : Nat) :
    RG10_LOCATION W x y rg10_R = 4 * W * y + (2 * W * 0 + (2 * x + 0)) := by
  simp only [RG10_LOCATION, rg10_R, RG10_COLORS, RG10_COLOR_SIZE]
  ring

theorem loc_Gr_eq (W x y : Nat) :
    RG10_LOCATION W x y rg10_Gr = 4 * W * y + (2 * W * 0 + (2 * x + 1)) := by
  simp only [RG10_LOCATION, rg10_Gr, rg10_R, RG10_COLORS, RG10_COLOR_SIZE]
  ring

theorem loc_Gb_eq (W x y : Nat) :
    RG10_LOCATION W x y (rg10_Gb W) = 4 * W * y + (2 * W * 1 + (2 * x + 0)) := by
  simp only [RG10_LOCATION, rg10_Gb, RG10_COLORS, RG10_COLOR_SIZE]
  ring

theorem loc_B_eq (W x y : Nat) :
    RG10_LOCATION W x y (rg10_B W) = 4 * W * y + (2 * W * 1 + (2 * x + 1)) := by
  simp only [RG10_LOCATION, rg10_B, rg10_Gb, RG10_COLORS, RG10_COLOR_SIZE]
  ring

def locY (W n : Nat) : Nat := n / (4 * W)
def locG (W n : Nat) : Nat := n % (4 * W) / (2 * W)
def locX (W n : Nat) : Nat := n % (4 * W) % (2 * W) / 2
def locL (W n : Nat) : Nat := n % (4 * W) % (2 * W) % 2

theorem loc_lt (W H x y g b : Nat) (hx : x < W) (hy : y < H) (hg : g < 2) (hb : b < 2) :
    4 * W * y + (2 * W * g + (2 * x + b)) < 4 * W * H := by
  have hs : 2 * W * g + (2 * x + b) < 4 * W := by
    interval_cases g <;> omega
  have h1 : 4 * W * (y + 1) ≤ 4 * W * H := Nat.mul_le_mul_left (4 * W) hy
  have h2 : 4 * W * (y + 1) = 4 * W * y + 4 * W := by ring
  omega

theorem loc_decode (W x y g b : Nat) (hW : 0 < W) (hx : x < W) (hg : g < 2) (hb : b < 2) :
    locY W (4 * W * y + (2 * W * g + (2 * x + b))) = y ∧
    locG W (4 * W * y + (2 * W * g + (2 * x + b))) = g ∧
    locX W (4 * W * y + (2 * W * g + (2 * x + b))) = x ∧
    locL W (4 * W * y + (2 * W * g + (2 * x + b))) = b := by
  have hs : 2 * W * g + (2 * x + b) < 4 * W := by
    interval_cases g <;> omega
  have hs2 : 2 * x + b < 2 * W := by omega
  have hdiv : (4 * W * y + (2 * W * g + (2 * x + b))) / (4 * W) = y := by
    rw [Nat.mul_add_div (by omega), Nat.div_eq_of_lt hs]
    omega
  have hmod : (4 * W * y + (2 * W * g + (2 * x + b))) % (4 * W) = 2 * W * g + (2 * x + b) := by
    rw [Nat.mul_add_mod, Nat.mod_eq_of_lt hs]
  have hdiv2 : (2 * W * g + (2 * x + b)) / (2 * W) = g := by
    rw [Nat.mul_add_div (by omega), Nat.div_eq_of_lt hs2]
    omega
  have hmod2 : (2 * W * g + (2 * x + b)) % (2 * W) = 2 * x + b := by
    rw [Nat.mul_add_mod, Nat.mod_eq_of_lt hs2]
  refine ⟨hdiv, ?_, ?_, ?_⟩
  · rw [locG, hmod, hdiv2]
  · rw [locX, hmod, hmod2]
    omega
  · rw [locL, hmod, hmod2]
    omega

theorem canon_inj (W : Nat) (hW : 0 < W) {x y g b x' y' g' b' : Nat}
    (hx : x < W) (hg : g < 2) (hb : b < 2) (hx' : x' < W) (hg' : g' < 2) (hb' : b' < 2)
    (h : 4 * W * y + (2 * W * g + (2 * x + b)) = 4 * W * y' + (2 * W * g' + (2 * x' + b'))) :
    y = y' ∧ g = g' ∧ x = x' ∧ b = b' := by
  obtain ⟨d1, d2, d3, d4⟩ := loc_decode W x y g b hW hx hg hb
  obtain ⟨e1, e2, e3, e4⟩ := loc_decode W x' y' g' b' hW hx' hg' hb'
  rw [h] at d1 d2 d3 d4
  exact ⟨d1.symm.trans e1, d2.symm.trans e2, d3.symm.trans e3, d4.symm.trans e4⟩

/-- n is canonical for (y, x, g, b). -/
theorem decomp_lt (W H n : Nat) (hW : 0 < W) (h : n < 4 * W * H) :
    ∃ y x g b, y < H ∧ x < W ∧ g < 2 ∧ b < 2 ∧
      n = 4 * W * y + (2 * W * g + (2 * x + b)) := by
  have h4 : 0 < 4 * W := by omega
  have e1 : 4 * W * (n / (4 * W)) + n % (4 * W) = n := Nat.div_add_mod n (4 * W)
  have e2 : 2 * W * (n % (4 * W) / (2 * W)) + n % (4 * W) % (2 * W) = n % (4 * W) :=
    Nat.div_add_mod _ (2 * W)
  have e3 : 2 * (n % (4 * W) % (2 * W) / 2) + n % (4 * W) % (2 * W) % 2
      = n % (4 * W) % (2 * W) := Nat.div_add_mod _ 2
  refine ⟨n / (4 * W), n % (4 * W) % (2 * W) / 2, n % (4 * W) / (2 * W),
    n % (4 * W) % (2 * W) % 2, ?_, ?_, ?_, ?_, ?_⟩
  · exact Nat.div_lt_of_lt_mul (by linarith [h])
  · have hm : n % (4 * W) % (2 * W) < 2 * W := Nat.mod_lt _ (by omega)
    exact Nat.div_lt_of_lt_mul (by linarith [hm])
  · have hm : n % (4 * W) < 4 * W := Nat.mod_lt _ h4
    exact Nat.div_lt_of_lt_mul (by linarith [hm])
  · omega
  · linarith [e1, e2, e3]

theorem mem_norm_locs (W H n : Nat) (hW : 0 < W) :
    n ∈ norm_locs W H ↔ n < 4 * W * H := by
  constructor
  · intro h
    simp only [norm_locs, List.mem_flatMap, List.mem_range, List.mem_cons,
      List.not_mem_nil, or_false] at h
    obtain ⟨y, hy, x, hx, hc⟩ := h
    rcases hc with rfl | rfl | rfl | rfl
    · rw [loc_Gb_eq]
      exact loc_lt W H x y 1 0 hx hy (by omega) (by omega)
    · rw [loc_Gr_eq]
      exact loc_lt W H x y 0 1 hx hy (by omega) (by omega)
    · rw [loc_R_eq]
      exact loc_lt W H x y 0 0 hx hy (by omega) (by omega)
    · rw [loc_B_eq]
      exact loc_lt W H x y 1 1 hx hy (by omega) (by omega)
  · intro h
    obtain ⟨y, x, g, b, hy, hx, hg, hb, hn⟩ := decomp_lt W H n hW h
    simp only [norm_locs, List.mem_flatMap, List.mem_range, List.mem_cons,
      List.not_mem_nil, or_false]
    refine ⟨y, hy, x, hx, ?_⟩
    interval_cases g <;> interval_cases b
    · rw [loc_R_eq]
      exact Or.inr (Or.inr (Or.inl hn))
    · rw [loc_Gr_eq]
      exact Or.inr (Or.inl hn)
    · rw [loc_Gb_eq]
      exact Or.inl hn
    · rw [loc_B_eq]
      exact Or.inr (Or.inr (Or.inr hn))

theorem mem_mm_locs (W H n : Nat) (hW : 0 < W) :
    n ∈ mm_locs W H ↔ n < 4 * W * H := by
  constructor
  · intro h
    simp only [mm_locs, List.mem_flatMap, List.mem_range, List.mem_cons,
      List.not_mem_nil, or_false] at h
    obtain ⟨y, hy, x, hx, hc⟩ := h
    rcases hc with rfl | rfl | rfl | rfl
    · rw [loc_Gb_eq]
      exact loc_lt W H x y 1 0 hx hy (by omega) (by omega)
    · rw [loc_Gr_eq]
      exact loc_lt W H x y 0 1 hx hy (by omega) (by omega)
    · rw [loc_B_eq]
      exact loc_lt W H x y 1 1 hx hy (by omega) (by omega)
    · rw [loc_R_eq]
      exact loc_lt W H x y 0 0 hx hy (by omega) (by omega)
  · intro h
    obtain ⟨y, x, g, b, hy, hx, hg, hb, hn⟩ := decomp_lt W H n hW h
    simp only [mm_locs, List.mem_flatMap, List.mem_range, List.mem_cons,
      List.not_mem_nil, or_false]
    refine ⟨y, hy, x, hx, ?_⟩
    interval_cases g <;> interval_cases b
    · rw [loc_R_eq]
      exact Or.inr (Or.inr (Or.inr hn))
    · rw [loc_Gr_eq]
      exact Or.inr (Or.inl hn)
    · rw [loc_Gb_eq]
      exact Or.inl hn
    · rw [loc_B_eq]
      exact Or.inr (Or.inr (Or.inl hn))

/-- Membership in the per-pixel list of normalize locations gives a
canonical decomposition. -/
theorem mem_inner_norm (W x y n : Nat)
    (h : n ∈ [RG10_LOCATION W x y (rg10_Gb W), RG10_LOCATION W x y rg10_Gr,
              RG10_LOCATION W x y rg10_R, RG10_LOCATION W x y (rg10_B W)]) :
    ∃ g b, g < 2 ∧ b < 2 ∧ n = 4 * W * y + (2 * W * g + (2 * x + b)) := by
  simp only [List.mem_cons, List.not_mem_nil, or_false] at h
  rcases h with rfl | rfl | rfl | rfl
  · exact ⟨1, 0, by omega, by omega, loc_Gb_eq W x y⟩
  · exact ⟨0, 1, by omega, by omega, loc_Gr_eq W x y⟩
  · exact ⟨0, 0, by omega, by omega, loc_R_eq W x y⟩
  · exact ⟨1, 1, by omega, by omega, loc_B_eq W x y⟩

theorem nodup_norm_locs (W H : Nat) (hW : 0 < W) : (norm_locs W H).Nodup := by
  rw [norm_locs, List.nodup_flatMap]
  constructor
  · intro y hy
    rw [List.nodup_flatMap]
    constructor
    · intro x hx
      rw [List.mem_range] at hx
      simp only [List.nodup_cons, List.mem_cons, List.not_mem_nil, or_false,
        List.nodup_nil, and_true, not_or, not_false_eq_true]
      rw [loc_Gb_eq, loc_Gr_eq, loc_R_eq, loc_B_eq]
      refine ⟨⟨?_, ?_, ?_⟩, ⟨?_, ?_⟩, ?_⟩ <;>
        · intro h
          have := canon_inj W hW hx (by omega) (by omega) hx (by omega) (by omega) h
          omega
    · rw [List.pairwise_iff_getElem]
      intro i j hi hj hij
      rw [List.getElem_range, List.getElem_range]
      intro n hn hn'
      rw [List.length_range] at hi hj
      obtain ⟨g, b, hg, hb, he⟩ := mem_inner_norm W i y n hn
      obtain ⟨g', b', hg', hb', he'⟩ := mem_inner_norm W j y n hn'
      have := canon_inj W hW hi hg hb hj hg' hb' (he.symm.trans he')
      omega
  · rw [List.pairwise_iff_getElem]
    intro i j hi hj hij
    rw [List.getElem_range, List.getElem_range]
    intro n hn hn'
    rw [List.length_range] at hi hj
    simp only [List.mem_flatMap, List.mem_range] at hn hn'
    obtain ⟨x, hx, hmem⟩ := hn
    obtain ⟨x', hx', hmem'⟩ := hn'
    obtain ⟨g, b, hg, hb, he⟩ := mem_inner_norm W x i n hmem
    obtain ⟨g', b', hg', hb', he'⟩ := mem_inner_norm W x' j n hmem'
    have := canon_inj W hW hx hg hb hx' hg' hb' (he.symm.trans he')
    omega

def rgb_locs (W H : Nat) : List Nat :=
  (List.range H).flatMap fun y => (List.range W).flatMap fun x =>
    [RGB_LOCATION W x y RGB_R, RGB_LOCATION W x y RGB_B, RGB_LOCATION W x y RGB_G]

theorem rgb_loc_eq (W x y c : Nat) :
    RGB_LOCATION W x y c = 3 * W * y + (3 * x + c) := by
  simp only [RGB_LOCATION, RGB_COLORS]
  ring

def rgbY (W n : Nat) : Nat := n / (3 * W)
def rgbX (W n : Nat) : Nat := n % (3 * W) / 3
def rgbC (W n : Nat) : Nat := n % (3 * W) % 3

theorem rgb_lt (W H x y c : Nat) (hx : x < W) (hy : y < H) (hc : c < 3) :
    3 * W * y + (3 * x + c) < 3 * W * H := by
  have hs : 3 * x + c < 3 * W := by omega
  have h1 : 3 * W * (y + 1) ≤ 3 * W * H := Nat.mul_le_mul_left (3 * W) hy
  have h2 : 3 * W * (y + 1) = 3 * W * y + 3 * W := by ring
  omega

theorem rgb_decode (W x y c : Nat) (hW : 0 < W) (hx : x < W) (hc : c < 3) :
    rgbY W (3 * W * y + (3 * x + c)) = y ∧
    rgbX W (3 * W * y + (3 * x + c)) = x ∧
    rgbC W (3 * W * y + (3 * x + c)) = c := by
  have hs : 3 * x + c < 3 * W := by omega
  have hdiv : (3 * W * y + (3 * x + c)) / (3 * W) = y := by
    rw [Nat.mul_add_div (by omega), Nat.div_eq_of_lt hs]
    omega
  have hmod : (3 * W * y + (3 * x + c)) % (3 * W) = 3 * x + c := by
    rw [Nat.mul_add_mod, Nat.mod_eq_of_lt hs]
  refine ⟨hdiv, ?_, ?_⟩
  · rw [rgbX, hmod]
    omega
  · rw [rgbC, hmod]
    omega

theorem rgb_canon_inj (W : Nat) (hW : 0 < W) {x y c x' y' c' : Nat}
    (hx : x < W) (hc : c < 3) (hx' : x' < W) (hc' : c' < 3)
    (h : 3 * W * y + (3 * x + c) = 3 * W * y' + (3 * x' + c')) :
    y = y' ∧ x = x' ∧ c = c' := by
  obtain ⟨d1, d2, d3⟩ := rgb_decode W x y c hW hx hc
  obtain ⟨e1, e2, e3⟩ := rgb_decode W x' y' c' hW hx' hc'
  rw [h] at d1 d2 d3
  exact ⟨d1.symm.trans e1, d2.symm.trans e2, d3.symm.trans e3⟩

theorem rgb_location_inj (W : Nat) (hW : 0 < W) {x y c x' y' c' : Nat}
    (hx : x < W) (hc : c < 3) (hx' : x' < W) (hc' : c' < 3)
    (h : RGB_LOCATION W x y c = RGB_LOCATION W x' y' c') :
    y = y' ∧ x = x' ∧ c = c' := by
  rw [rgb_loc_eq, rgb_loc_eq] at h
  exact rgb_canon_inj W hW hx hc hx' hc' h

theorem mem_inner_rgb (W x y n : Nat)
    (h : n ∈ [RGB_LOCATION W x y RGB_R, RGB_LOCATION W x y RGB_B, RGB_LOCATION W x y RGB_G]) :
    ∃ c, c < 3 ∧ n = 3 * W * y + (3 * x + c) := by
  simp only [List.mem_cons, List.not_mem_nil, or_false] at h
  rcases h with rfl | rfl | rfl
  · exact ⟨2, by omega, rgb_loc_eq W x y RGB_R⟩
  · exact ⟨0, by omega, rgb_loc_eq W x y RGB_B⟩
  · exact ⟨1, by omega, rgb_loc_eq W x y RGB_G⟩

theorem nodup_rgb_locs (W H : Nat) (hW : 0 < W) : (rgb_locs W H).Nodup := by
  rw [rgb_locs, List.nodup_flatMap]
  constructor
  · intro y hy
    rw [List.nodup_flatMap]
    constructor
    · intro x hx
      rw [List.mem_range] at hx
      simp only [List.nodup_cons, List.mem_cons, List.not_mem_nil, or_false,
        List.nodup_nil, and_true, not_or, not_false_eq_true]
      rw [rgb_loc_eq, rgb_loc_eq, rgb_loc_eq]
      simp only [RGB_R, RGB_B, RGB_G]
      refine ⟨⟨?_, ?_⟩, ?_⟩ <;>
        · intro h
          have := rgb_canon_inj W hW hx (by omega) hx (by omega) h
          omega
    · rw [List.pairwise_iff_getElem]
      intro i j hi hj hij
      rw [List.getElem_range, List.getElem_range]
      intro n hn hn'
      rw [List.length_range] at hi hj
      obtain ⟨c, hc, he⟩ := mem_inner_rgb W i y n hn
      obtain ⟨c', hc', he'⟩ := mem_inner_rgb W j y n hn'
      have := rgb_canon_inj W hW hi hc hj hc' (he.symm.trans he')
      omega
  · rw [List.pairwise_iff_getElem]
    intro i j hi hj hij
    rw [List.getElem_range, List.getElem_range]
    intro n hn hn'
    rw [List.length_range] at hi hj
    simp only [List.mem_flatMap, List.mem_range] at hn hn'
    obtain ⟨x, hx, hmem⟩ := hn
    obtain ⟨x', hx', hmem'⟩ := hn'
    obtain ⟨c, hc, he⟩ := mem_inner_rgb W x i n hmem
    obtain ⟨c', hc', he'⟩ := mem_inner_rgb W x' j n hmem'
    have := rgb_canon_inj W hW hx hc hx' hc' (he.symm.trans he')
    omega

/-! ## Numeric bounds for the binary32 model -/

theorem lg2_spec : ∀ (fuel n : Nat), 0 < n → n < 2 ^ fuel →
    2 ^ lg2 fuel n ≤ n ∧ n < 2 ^ (lg2 fuel n + 1) := by
  intro fuel
  induction fuel with
  | zero =>
    intro n h1 h2
    omega
  | succ fuel ih =>
    intro n h1 h2
    rw [lg2]
    by_cases hn : n < 2
    · rw [if_pos hn]
      omega
    · rw [if_neg hn]
      have hq1 : 0 < n / 2 := by omega
      have hq2 : n / 2 < 2 ^ fuel := by
        rw [pow_succ] at h2
        omega
      obtain ⟨ihl, ihr⟩ := ih (n / 2) hq1 hq2
      constructor
      · rw [pow_succ]
        omega
      · rw [pow_succ]
        rw [pow_succ] at ihr
        omega

theorem rneFrac_bounds (n d : Nat) (hd : 0 < d) :
    2 * d * rneFrac n d ≤ 2 * n + d ∧ 2 * n ≤ 2 * d * rneFrac n d + d := by
  simp only [rneFrac]
  obtain ⟨q, hq⟩ : ∃ q, n / d = q := ⟨_, rfl⟩
  obtain ⟨r, hr⟩ : ∃ r, n % d = r := ⟨_, rfl⟩
  rw [hq, hr]
  have hrd : r < d := by
    rw [← hr]
    exact Nat.mod_lt n hd
  have hqr : d * q + r = n := by
    rw [← hq, ← hr]
    exact Nat.div_add_mod n d
  subst hqr
  split_ifs with h1 h2 h3 <;> constructor <;> nlinarith [hrd]

theorem rneShift_bounds (m k : Nat) :
    2 * 2 ^ k * rneShift m k ≤ 2 * m + 2 ^ k ∧
    2 * m ≤ 2 * 2 ^ k * rneShift m k + 2 ^ k := by
  by_cases hk : k = 0
  · rw [rneShift, if_pos hk, hk]
    omega
  · have hkk : 2 ^ k = 2 * 2 ^ (k - 1) := by
      rw [← pow_succ']
      congr 1
      omega
    simp only [rneShift, if_neg hk]
    obtain ⟨q, hq⟩ : ∃ q, m / 2 ^ k = q := ⟨_, rfl⟩
    obtain ⟨r, hr⟩ : ∃ r, m % 2 ^ k = r := ⟨_, rfl⟩
    rw [hq, hr]
    have hrd : r < 2 ^ k := by
      rw [← hr]
      exact Nat.mod_lt m (Nat.pos_pow_of_pos k (by omega))
    have hqr : 2 ^ k * q + r = m := by
      rw [← hq, ← hr]
      exact Nat.div_add_mod m (2 ^ k)
    subst hqr
    split_ifs with h1 h2 h3 <;> constructor <;> nlinarith [hrd, hkk]

theorem F32.val_nonneg (f : F32) : 0 ≤ f.val := by
  unfold F32.val
  positivity

theorem fdiv_val (a b : Nat) (ha : 0 < a) (ha' : a ≤ 1023) (hb : 0 < b) (hb' : b ≤ 65535) :
    |F32.val (fdiv a b) - (a : ℚ) / b| ≤ ((a : ℚ) / b) / 2 ^ 24 ∧ (fdiv a b).num ≤ 2 ^ 24 := by
  have hN1 : 1 ≤ a * 2 ^ 26 / b := by
    rw [Nat.one_le_div_iff hb]
    have h1 : (2:Nat) ^ 26 ≤ a * 2 ^ 26 := Nat.le_mul_of_pos_left _ ha
    omega
  have hN2 : a * 2 ^ 26 / b < 2 ^ 36 := by
    have h1 : a * 2 ^ 26 / b ≤ a * 2 ^ 26 := Nat.div_le_self _ _
    have h2 : a * 2 ^ 26 ≤ 1023 * 2 ^ 26 := Nat.mul_le_mul_right _ ha'
    omega
  obtain ⟨hL1, hL2⟩ := lg2_spec 64 (a * 2 ^ 26 / b) hN1 (by omega)
  have hL36 : lg2 64 (a * 2 ^ 26 / b) ≤ 35 := by
    by_contra hcon
    push_neg at hcon
    have : (2:Nat) ^ 36 ≤ 2 ^ lg2 64 (a * 2 ^ 26 / b) :=
      Nat.pow_le_pow_right (by omega) (by omega)
    omega
  -- abbreviations
  set L := lg2 64 (a * 2 ^ 26 / b) with hLdef
  set N := a * 2 ^ 26 / b with hNdef
  set t := 49 - L with htdef
  set M := rneFrac (a * 2 ^ t) b with hMdef
  have hfd : fdiv a b = ⟨M, (L : Int) - 49⟩ := rfl
  have ht49 : L + t = 49 := by omega
  -- the value is M / 2^t
  have hval : F32.val (fdiv a b) = (M : ℚ) / 2 ^ t := by
    rw [hfd]
    unfold F32.val
    have hexp : (L : Int) - 49 = -(t : Int) := by omega
    rw [hexp]
    rw [zpow_neg, zpow_natCast]
    rw [div_eq_mul_inv]
  -- cast the rneFrac bounds
  obtain ⟨hrf1, hrf2⟩ := rneFrac_bounds (a * 2 ^ t) b hb
  have hb0 : (0 : ℚ) < b := by positivity
  have hq1 : 2 * (b:ℚ) * M ≤ 2 * ((a:ℚ) * 2 ^ t) + b := by exact_mod_cast hrf1
  have hq2 : 2 * ((a:ℚ) * 2 ^ t) ≤ 2 * (b:ℚ) * M + b := by exact_mod_cast hrf2
  -- |M - a 2^t / b| <= 1/2
  have hX : ((a:ℚ) * 2 ^ t / b) * b = (a:ℚ) * 2 ^ t := div_mul_cancel₀ _ (ne_of_gt hb0)
  have habs : |(M : ℚ) - (a : ℚ) * 2 ^ t / b| ≤ 1 / 2 := by
    rw [abs_le]
    constructor <;> nlinarith [hq1, hq2, hb0, hX]
  -- lower bound on a/b in terms of L
  have hNb : N * b ≤ a * 2 ^ 26 := Nat.div_mul_le_self _ _
  have hlow : (2:ℚ) ^ L / 2 ^ 26 ≤ (a:ℚ) / b := by
    rw [div_le_div_iff (by positivity) hb0]
    have hc : ((2:ℚ) ^ L) * b ≤ (a:ℚ) * 2 ^ 26 := by
      have h1 : 2 ^ L * b ≤ a * 2 ^ 26 := le_trans (Nat.mul_le_mul_right b hL1) hNb
      exact_mod_cast h1
    linarith
  -- a * 2^t / b < 2^24
  have hup : (a:ℚ) * 2 ^ t / b < 2 ^ 24 := by
    have h1 : a * 2 ^ 26 < b * (N + 1) := by
      have e := Nat.div_add_mod (a * 2 ^ 26) b
      have hm := Nat.mod_lt (a * 2 ^ 26) hb
      have e2 : b * (N + 1) = b * N + b := by ring
      rw [hNdef] at e2 ⊢
      omega
    have h2 : b * (N + 1) ≤ b * 2 ^ (L + 1) := Nat.mul_le_mul_left b hL2
    have key : (a:ℚ) * 2 ^ 26 < (b:ℚ) * 2 ^ (L + 1) := by exact_mod_cast lt_of_lt_of_le h1 h2
    rw [div_lt_iff hb0]
    have e3 : (2:ℚ) ^ (L + 1) * 2 ^ t = 2 ^ 50 := by
      rw [← pow_add]
      congr 1
      omega
    have fact2 : (a:ℚ) * 2 ^ 26 * 2 ^ t < (b:ℚ) * 2 ^ 50 := by
      calc (a:ℚ) * 2 ^ 26 * 2 ^ t < (b:ℚ) * 2 ^ (L + 1) * 2 ^ t :=
              mul_lt_mul_of_pos_right key (by positivity)
        _ = (b:ℚ) * ((2:ℚ) ^ (L + 1) * 2 ^ t) := by ring
        _ = (b:ℚ) * 2 ^ 50 := by rw [e3]
    have fact3 : (a:ℚ) * 2 ^ t * 2 ^ 26 < 2 ^ 24 * (b:ℚ) * 2 ^ 26 := by nlinarith [fact2]
    have := lt_of_mul_lt_mul_right fact3 (by positivity : (0:ℚ) ≤ 2 ^ 26)
    linarith
  have e2 : ((1:ℚ) / 2) / 2 ^ t = (2:ℚ) ^ L / 2 ^ 50 := by
    rw [div_div, div_eq_div_iff (by positivity) (by positivity), one_mul]
    symm
    calc (2:ℚ) ^ L * (2 * 2 ^ t) = 2 ^ L * 2 ^ t * 2 := by ring
      _ = 2 ^ (L + t) * 2 := by rw [← pow_add]
      _ = 2 ^ (L + t + 1) := by rw [pow_succ]
      _ = 2 ^ 50 := by
          congr 1
          omega
  have e3 : (2:ℚ) ^ L / 2 ^ 50 ≤ ((a:ℚ) / b) / 2 ^ 24 := by
    rw [show (2:ℚ) ^ 50 = 2 ^ 26 * 2 ^ 24 from by norm_num, ← div_div]
    gcongr
  constructor
  · -- final error bound
    rw [hval]
    have e1 : (M:ℚ) / 2 ^ t - (a:ℚ) / b = ((M:ℚ) - (a:ℚ) * 2 ^ t / b) / 2 ^ t := by
      field_simp
      ring
    rw [e1, abs_div, abs_of_pos (by positivity : (0:ℚ) < 2 ^ t)]
    calc |(M:ℚ) - (a:ℚ) * 2 ^ t / b| / 2 ^ t ≤ (1 / 2) / 2 ^ t := by gcongr
      _ = (2:ℚ) ^ L / 2 ^ 50 := e2
      _ ≤ ((a:ℚ) / b) / 2 ^ 24 := e3
  · -- num bound
    have hM2 : (M:ℚ) ≤ (a:ℚ) * 2 ^ t / b + 1 / 2 := by
      have := (abs_le.mp habs).2
      linarith
    have hMq : (M:ℚ) < 2 ^ 24 + 1 := by linarith
    have hMn : M < 2 ^ 24 + 1 := by exact_mod_cast hMq
    rw [hfd]
    show M ≤ 2 ^ 24
    omega

theorem fmulN_val (w : Nat) (f : F32) (hw : w ≤ 65535) (hf : f.num ≤ 2 ^ 24) :
    |F32.val (fmulN w f) - (w : ℚ) * F32.val f| ≤ ((w : ℚ) * F32.val f) / 2 ^ 24 := by
  have hval : (w : ℚ) * F32.val f = ((w * f.num : Nat) : ℚ) * (2:ℚ) ^ f.exp := by
    unfold F32.val
    push_cast
    ring
  by_cases hP : w * f.num < 2 ^ 24
  · have he : fmulN w f = ⟨w * f.num, f.exp⟩ := by
      simp only [fmulN, if_pos hP]
    rw [he, hval]
    unfold F32.val
    rw [sub_self, abs_zero]
    positivity
  · push_neg at hP
    have hP64 : w * f.num < 2 ^ 64 := by
      have h1 : w * f.num ≤ 65535 * 2 ^ 24 := Nat.mul_le_mul hw hf
      omega
    have hP0 : 0 < w * f.num := by
      have : (0:Nat) < 2 ^ 24 := by norm_num
      omega
    obtain ⟨hg1, hg2⟩ := lg2_spec 64 (w * f.num) hP0 hP64
    have hlg24 : 24 ≤ lg2 64 (w * f.num) := by
      by_contra hcon
      push_neg at hcon
      have : (2:Nat) ^ (lg2 64 (w * f.num) + 1) ≤ 2 ^ 24 :=
        Nat.pow_le_pow_right (by omega) (by omega)
      omega
    have he : fmulN w f = ⟨rneShift (w * f.num) (lg2 64 (w * f.num) - 23),
        f.exp + (lg2 64 (w * f.num) - 23 : Nat)⟩ := by
      simp only [fmulN]
      rw [if_neg (by omega)]
    set P := w * f.num with hPdef
    set k := lg2 64 P - 23 with hkdef
    have hk23 : k + 23 = lg2 64 P := by omega
    have hPk : 2 ^ (k + 23) ≤ P := by
      rw [hk23]
      exact hg1
    set R := rneShift P k with hRdef
    obtain ⟨hr1, hr2⟩ := rneShift_bounds P k
    have hq1 : 2 * (2:ℚ) ^ k * R ≤ 2 * (P:ℚ) + 2 ^ k := by exact_mod_cast hr1
    have hq2 : 2 * (P:ℚ) ≤ 2 * (2:ℚ) ^ k * R + 2 ^ k := by exact_mod_cast hr2
    -- value of the product
    have hvm : F32.val (fmulN w f) = (R:ℚ) * 2 ^ k * (2:ℚ) ^ f.exp := by
      rw [he]
      unfold F32.val
      show (R:ℚ) * (2:ℚ) ^ (f.exp + (k:Nat)) = _
      rw [zpow_add₀ (by norm_num : (2:ℚ) ≠ 0), zpow_natCast]
      ring
    have hzpos : (0:ℚ) < (2:ℚ) ^ f.exp := zpow_pos (by norm_num) _
    have habs : |(R:ℚ) * 2 ^ k - P| ≤ 2 ^ k / 2 := by
      rw [abs_le]
      constructor <;> nlinarith [hq1, hq2]
    have hdiff : F32.val (fmulN w f) - (w:ℚ) * F32.val f
        = ((R:ℚ) * 2 ^ k - P) * (2:ℚ) ^ f.exp := by
      rw [hvm, hval]
      ring
    rw [hdiff, hval, abs_mul, abs_of_pos hzpos]
    have hPb : (2:ℚ) ^ k / 2 ≤ (P:ℚ) / 2 ^ 24 := by
      rw [div_le_div_iff (by norm_num) (by positivity)]
      have hc : ((2:Nat) ^ (k + 23) : ℚ) ≤ (P:ℚ) := by exact_mod_cast hPk
      push_cast at hc
      rw [pow_add] at hc
      nlinarith [hc]
    calc |(R:ℚ) * 2 ^ k - P| * (2:ℚ) ^ f.exp ≤ (2 ^ k / 2) * (2:ℚ) ^ f.exp :=
          mul_le_mul_of_nonneg_right habs (le_of_lt hzpos)
      _ ≤ ((P:ℚ) / 2 ^ 24) * (2:ℚ) ^ f.exp :=
          mul_le_mul_of_nonneg_right hPb (le_of_lt hzpos)
      _ = (P:ℚ) * (2:ℚ) ^ f.exp / 2 ^ 24 := by ring

theorem val_of_nonneg_exp (f : F32) (he : 0 ≤ f.exp) :
    F32.val f = ((f.num * 2 ^ f.exp.toNat : Nat) : ℚ) := by
  unfold F32.val
  have h2 : (2:ℚ) ^ f.exp = (2:ℚ) ^ f.exp.toNat := by
    rw [← zpow_natCast]
    congr 1
    omega
  rw [h2]
  push_cast
  ring

theorem val_of_neg_exp (f : F32) (he : ¬ 0 ≤ f.exp) :
    F32.val f = (f.num : ℚ) / 2 ^ (-f.exp).toNat := by
  unfold F32.val
  set t := (-f.exp).toNat with ht
  have hexp : f.exp = -(t : ℤ) := by omega
  rw [hexp, zpow_neg, zpow_natCast, div_eq_mul_inv]

theorem froundN_char (f : F32) :
    (froundN f : ℚ) ≤ F32.val f + 1 / 2 ∧ F32.val f + 1 / 2 < froundN f + 1 := by
  unfold froundN
  by_cases he : 0 ≤ f.exp
  · rw [if_pos he, val_of_nonneg_exp f he]
    constructor <;> push_cast <;> linarith
  · rw [if_neg he, val_of_neg_exp f he]
    set t := (-f.exp).toNat
    set Q := (2 * f.num + 2 ^ t) / 2 ^ (t + 1) with hQ
    have hpos : 0 < 2 ^ (t + 1) := Nat.pos_pow_of_pos _ (by omega)
    have h1 : Q * 2 ^ (t + 1) ≤ 2 * f.num + 2 ^ t := Nat.div_mul_le_self _ _
    have h2 : 2 * f.num + 2 ^ t < (Q + 1) * 2 ^ (t + 1) := by
      have e := Nat.div_add_mod (2 * f.num + 2 ^ t) (2 ^ (t + 1))
      rw [← hQ] at e
      have hm := Nat.mod_lt (2 * f.num + 2 ^ t) hpos
      have e2 : (Q + 1) * 2 ^ (t + 1) = 2 ^ (t + 1) * Q + 2 ^ (t + 1) := by ring
      linarith
    have key : (f.num : ℚ) / 2 ^ t + 1 / 2 = ((2 * f.num + 2 ^ t : Nat) : ℚ) / 2 ^ (t + 1) := by
      push_cast
      rw [pow_succ]
      field_simp
      ring
    rw [key]
    constructor
    · rw [le_div_iff (by positivity)]
      have := (Nat.cast_le (α := ℚ)).mpr h1
      push_cast at this ⊢
      linarith
    · rw [div_lt_iff (by positivity)]
      have := (Nat.cast_lt (α := ℚ)).mpr h2
      push_cast at this ⊢
      linarith

theorem ftruncN_char (f : F32) :
    (ftruncN f : ℚ) ≤ F32.val f ∧ F32.val f < ftruncN f + 1 := by
  unfold ftruncN
  by_cases he : 0 ≤ f.exp
  · rw [if_pos he, val_of_nonneg_exp f he]
    constructor <;> push_cast <;> linarith
  · rw [if_neg he, val_of_neg_exp f he]
    set t := (-f.exp).toNat
    set T := f.num / 2 ^ t with hT
    have hpos : 0 < 2 ^ t := Nat.pos_pow_of_pos _ (by omega)
    have h1 : T * 2 ^ t ≤ f.num := Nat.div_mul_le_self _ _
    have h2 : f.num < (T + 1) * 2 ^ t := by
      have e := Nat.div_add_mod f.num (2 ^ t)
      rw [← hT] at e
      have hm := Nat.mod_lt f.num hpos
      have e2 : (T + 1) * 2 ^ t = 2 ^ t * T + 2 ^ t := by ring
      linarith
    constructor
    · rw [le_div_iff (by positivity)]
      have := (Nat.cast_le (α := ℚ)).mpr h1
      push_cast at this ⊢
      linarith
    · rw [div_lt_iff (by positivity)]
      have := (Nat.cast_lt (α := ℚ)).mpr h2
      push_cast at this ⊢
      linarith

theorem normMul_close (w d : Nat) (hw : w ≤ d) (hd : 0 < d) (hd' : d ≤ 65535) :
    |F32.val (fmulN w (fdiv 1023 d)) - (w:ℚ) * ((1023:ℚ) / d)| ≤ 1 / 4 ∧
    (w:ℚ) * ((1023:ℚ) / d) ≤ 1023 := by
  obtain ⟨hdv, hnum⟩ := fdiv_val 1023 d (by norm_num) (by norm_num) hd hd'
  have hmul := fmulN_val w (fdiv 1023 d) (by omega) hnum
  have hA0 : 0 ≤ F32.val (fdiv 1023 d) := F32.val_nonneg _
  set A := F32.val (fdiv 1023 d) with hA
  set B := F32.val (fmulN w (fdiv 1023 d)) with hB
  have hd0 : (0:ℚ) < d := by
    have : (0:Nat) < d := hd
    exact_mod_cast this
  have hwd : (w:ℚ) ≤ d := by exact_mod_cast hw
  have hw0 : (0:ℚ) ≤ w := by positivity
  have hdX : (d:ℚ) * (1023 / d) = 1023 := by field_simp
  have hwX : (w:ℚ) * ((1023:ℚ) / d) ≤ 1023 := by
    calc (w:ℚ) * ((1023:ℚ) / d) ≤ (d:ℚ) * ((1023:ℚ) / d) :=
          mul_le_mul_of_nonneg_right hwd (by positivity)
      _ = 1023 := hdX
  refine ⟨?_, hwX⟩
  have hA_up : A ≤ 1023 / d + (1023 / d) / 2 ^ 24 := by
    have := (abs_le.mp hdv).2
    linarith
  have hwA_up : (w:ℚ) * A ≤ (w:ℚ) * (1023 / d) + (w:ℚ) * ((1023 / d) / 2 ^ 24) := by
    have := mul_le_mul_of_nonneg_left hA_up hw0
    linarith [this]
  have hwXd : (w:ℚ) * ((1023 / d) / 2 ^ 24) ≤ 1023 / 2 ^ 24 := by
    have : (w:ℚ) * ((1023 / d) / 2 ^ 24) = ((w:ℚ) * (1023 / d)) / 2 ^ 24 := by ring
    rw [this]
    gcongr
  -- triangle inequality
  have habs2 : |(w:ℚ) * A - (w:ℚ) * (1023 / d)| = (w:ℚ) * |A - 1023 / d| := by
    rw [← mul_sub, abs_mul, abs_of_nonneg hw0]
  have hstep : |(w:ℚ) * A - (w:ℚ) * (1023 / d)| ≤ (w:ℚ) * ((1023 / d) / 2 ^ 24) := by
    rw [habs2]
    exact mul_le_mul_of_nonneg_left (abs_le.mp hdv |> fun h => abs_le.mpr h) hw0
  calc |B - (w:ℚ) * ((1023:ℚ) / d)|
      ≤ |B - (w:ℚ) * A| + |(w:ℚ) * A - (w:ℚ) * (1023 / d)| := abs_sub_le _ _ _
    _ ≤ (w:ℚ) * A / 2 ^ 24 + (w:ℚ) * ((1023 / d) / 2 ^ 24) := add_le_add hmul hstep
    _ ≤ 1 / 4 := by
        have h1 : (w:ℚ) * A / 2 ^ 24 ≤ ((w:ℚ) * (1023 / d) + (w:ℚ) * ((1023 / d) / 2 ^ 24)) / 2 ^ 24 := by
          gcongr
        have h2 : (w:ℚ) * ((1023 / d) / 2 ^ 24) ≤ 1023 / 2 ^ 24 := hwXd
        have h3 : ((w:ℚ) * (1023 / d) + (w:ℚ) * ((1023 / d) / 2 ^ 24)) / 2 ^ 24
            ≤ (1023 + 1023 / 2 ^ 24) / 2 ^ 24 := by
          gcongr
        linarith [h1, h2, h3, show ((1023:ℚ) + 1023 / 2 ^ 24) / 2 ^ 24 + 1023 / 2 ^ 24 ≤ 1 / 4 from by norm_num]

/-- With a positive divisor, the per-sample normalization is the finite
float computation, its result is at most 1023, and it is within 1 of the
exact round-to-nearest rescaling. -/
theorem normalize_sample_spec (mn mx v : Nat) (hlt : mn < mx) (hmn : mn ≤ v)
    (hv : v ≤ mx) (hmx : mx ≤ 65535) :
    normalize_sample mn mx v = some (froundN (fmulN (v - mn) (fdiv 1023 (mx - mn)))) ∧
    froundN (fmulN (v - mn) (fdiv 1023 (mx - mn))) ≤ 1023 ∧
    (v = mx → froundN (fmulN (v - mn) (fdiv 1023 (mx - mn))) = 1023) ∧
    (froundN (fmulN (v - mn) (fdiv 1023 (mx - mn))) ≤
        (2 * 1023 * (v - mn) + (mx - mn)) / (2 * (mx - mn)) + 1 ∧
      (2 * 1023 * (v - mn) + (mx - mn)) / (2 * (mx - mn)) ≤
        froundN (fmulN (v - mn) (fdiv 1023 (mx - mn))) + 1) := by
  set d := mx - mn with hd_def
  set w := v - mn with hw_def
  have hd : 0 < d := by omega
  have hd65 : d ≤ 65535 := by omega
  have hwle : w ≤ d := by omega
  obtain ⟨hclose, hX⟩ := normMul_close w d hwle hd hd65
  set B := F32.val (fmulN w (fdiv 1023 d)) with hB
  set Q := froundN (fmulN w (fdiv 1023 d)) with hQ
  obtain ⟨hq1, hq2⟩ := froundN_char (fmulN w (fdiv 1023 d))
  rw [← hB, ← hQ] at hq1 hq2
  have hd0 : (0:ℚ) < d := by
    have : (0:Nat) < d := hd
    exact_mod_cast this
  -- upper bound Q ≤ 1023
  have hQ1023 : Q ≤ 1023 := by
    have hBle : B ≤ 1023 + 1 / 4 := by
      have := (abs_le.mp hclose).2
      linarith
    have : (Q:ℚ) < 1024 := by linarith
    exact_mod_cast Nat.lt_succ_iff.mp (by exact_mod_cast this)
  have hsome : normalize_sample mn mx v = some Q := by
    unfold normalize_sample
    have hdne : ¬ (mx - mn) = 0 := by omega
    have hMR : MAX_RG10 = 1023 := rfl
    simp only [fdivE, hMR, if_neg hdne, fmulNE, roundU16E]
    rw [← hd_def, ← hw_def]
    rw [if_pos (by omega : froundN (fmulN w (fdiv 1023 d)) < 65536)]
  refine ⟨hsome, hQ1023, ?_, ?_⟩
  · -- the maximum sample maps to 1023
    intro hvmx
    have hwd : w = d := by omega
    have hXval : (w:ℚ) * ((1023:ℚ) / d) = 1023 := by
      rw [hwd]
      field_simp
    have hBge : 1023 - 1 / 4 ≤ B := by
      have := (abs_le.mp hclose).1
      rw [hXval] at this
      linarith
    have hq : (1022:ℚ) < Q := by linarith
    have : 1022 < Q := by exact_mod_cast hq
    omega
  · -- within 1 of exact rounding
    set R := (2 * 1023 * w + d) / (2 * d) with hR
    have h2d : 0 < 2 * d := by omega
    have hc1 : R * (2 * d) ≤ 2 * 1023 * w + d := Nat.div_mul_le_self _ _
    have hc2 : 2 * 1023 * w + d < (R + 1) * (2 * d) := by
      have e := Nat.div_add_mod (2 * 1023 * w + d) (2 * d)
      rw [← hR] at e
      have hm := Nat.mod_lt (2 * 1023 * w + d) h2d
      have e2 : (R + 1) * (2 * d) = 2 * d * R + 2 * d := by ring
      linarith
    -- R ≤ X + 1/2 < R + 1 where X = w * (1023 / d)
    have hXeq : (w:ℚ) * ((1023:ℚ) / d) + 1 / 2 = ((2 * 1023 * w + d : Nat) : ℚ) / (2 * d) := by
      push_cast
      field_simp
      ring
    have hRle : (R:ℚ) ≤ (w:ℚ) * ((1023:ℚ) / d) + 1 / 2 := by
      rw [hXeq, le_div_iff (by positivity)]
      have := (Nat.cast_le (α := ℚ)).mpr hc1
      push_cast at this ⊢
      linarith
    have hRgt : (w:ℚ) * ((1023:ℚ) / d) + 1 / 2 < (R:ℚ) + 1 := by
      rw [hXeq, div_lt_iff (by positivity)]
      have := (Nat.cast_lt (α := ℚ)).mpr hc2
      push_cast at this ⊢
      linarith
    have habs1 := (abs_le.mp hclose).1
    have habs2 := (abs_le.mp hclose).2
    constructor
    · -- Q ≤ R + 1
      have : (Q:ℚ) < (R:ℚ) + 2 := by linarith
      have h2 : Q < R + 2 := by exact_mod_cast this
      omega
    · -- R ≤ Q + 1
      have : (R:ℚ) < (Q:ℚ) + 2 := by linarith
      have h2 : R < Q + 2 := by exact_mod_cast this
      omega

theorem froundN_zero (e : Int) : froundN ⟨0, e⟩ = 0 := by
  unfold froundN
  by_cases he : 0 ≤ e
  · rw [if_pos he]
    simp
  · rw [if_neg he]
    show (2 * 0 + 2 ^ (-e).toNat) / 2 ^ ((-e).toNat + 1) = 0
    apply Nat.div_eq_of_lt
    have h := pow_succ 2 (-e).toNat
    have h2 : 0 < 2 ^ (-e).toNat := Nat.pos_pow_of_pos _ (by omega)
    omega

theorem fmulN_zero (f : F32) : fmulN 0 f = ⟨0, f.exp⟩ := by
  simp [fmulN]

/-- The minimum sample is rescaled to exactly 0. -/
theorem normalize_sample_min (mn mx : Nat) (hlt : mn < mx) :
    normalize_sample mn mx mn = some 0 := by
  unfold normalize_sample
  have hdne : ¬ (mx - mn) = 0 := by omega
  simp only [fdivE, if_neg hdne, fmulNE, Nat.sub_self, fmulN_zero, roundU16E, froundN_zero]
  norm_num

/-- On a degenerate frame the divisor is zero: the multiplier is +inf,
`0 * inf` is NaN and the conversion of the NaN is undefined. -/
theorem normalize_sample_self_none (k : Nat) : normalize_sample k k k = none := by
  unfold normalize_sample
  simp [fdivE, fmulNE, roundU16E, MAX_RG10]

/-! ## Frame-level characterizations -/

theorem getD_le_of_bound (buf : List Nat) (B j : Nat) (hb : ∀ v ∈ buf, v ≤ B) :
    buf.getD j 0 ≤ B := by
  by_cases hj : j < buf.length
  · rw [List.getD_eq_getElem buf 0 hj]
    exact hb _ (List.getElem_mem hj)
  · rw [List.getD_eq_default _ _ (by omega)]
    omega

theorem min_max_frame_eq (W H : Nat) (buf : List Nat) :
    min_max_frame W H buf =
      (((mm_locs W H).map (fun i => buf.getD i 0)).foldl
          (fun m v => if v < m then v else m) 65535,
       ((mm_locs W H).map (fun i => buf.getD i 0)).foldl
          (fun m v => if m < v then v else m) 0) := by
  have h1 : min_max_frame W H buf
      = ((mm_locs W H).map (fun i => buf.getD i 0)).foldl
          (fun s v => (if v < s.1 then v else s.1, if s.2 < v then v else s.2)) (65535, 0) := by
    rw [List.foldl_map]
    rfl
  rw [h1, foldl_pair_minmax]

theorem min_max_frame_spec (W H : Nat) (hW : 0 < W) (hH : 0 < H) (buf : List Nat)
    (hbound : ∀ v ∈ buf, v ≤ 65535) :
    (∀ j, j < 4 * W * H → (min_max_frame W H buf).1 ≤ buf.getD j 0) ∧
    (∀ j, j < 4 * W * H → buf.getD j 0 ≤ (min_max_frame W H buf).2) ∧
    (∃ j, j < 4 * W * H ∧ buf.getD j 0 = (min_max_frame W H buf).1) ∧
    (∃ j, j < 4 * W * H ∧ buf.getD j 0 = (min_max_frame W H buf).2) := by
  rw [min_max_frame_eq]
  dsimp only
  set vals := (mm_locs W H).map (fun i => buf.getD i 0) with hvals
  have hmem : ∀ j, j < 4 * W * H → buf.getD j 0 ∈ vals := by
    intro j hj
    rw [hvals]
    exact List.mem_map_of_mem _ ((mem_mm_locs W H j hW).mpr hj)
  have h0 : (0:Nat) < 4 * W * H := by positivity
  refine ⟨?_, ?_, ?_, ?_⟩
  · intro j hj
    exact foldl_min_le_mem vals 65535 _ (hmem j hj)
  · intro j hj
    exact foldl_max_ge_mem vals 0 _ (hmem j hj)
  · rcases foldl_min_attained vals 65535 with h | h
    · refine ⟨0, h0, ?_⟩
      have hle : vals.foldl (fun m v => if v < m then v else m) 65535 ≤ buf.getD 0 0 :=
        foldl_min_le_mem vals 65535 _ (hmem 0 h0)
      have hub : buf.getD 0 0 ≤ 65535 := getD_le_of_bound buf 65535 0 hbound
      omega
    · obtain ⟨i, hi, hv⟩ := List.mem_map.mp h
      exact ⟨i, (mem_mm_locs W H i hW).mp hi, hv⟩
  · rcases foldl_max_attained vals 0 with h | h
    · refine ⟨0, h0, ?_⟩
      have hge : buf.getD 0 0 ≤ vals.foldl (fun m v => if m < v then v else m) 0 :=
        foldl_max_ge_mem vals 0 _ (hmem 0 h0)
      omega
    · obtain ⟨i, hi, hv⟩ := List.mem_map.mp h
      exact ⟨i, (mem_mm_locs W H i hW).mp hi, hv⟩

/-- Core characterization of `normalize_frame` on a non-degenerate frame:
it stores, in place, the float rescaling of every sample, the results lie
in `[0, 1023]`, and the extremes `0` and `1023` are attained. -/
theorem normalize_frame_spec (W H : Nat) (hW : 0 < W) (hH : 0 < H) (buf : List Nat)
    (hlen : buf.length = W * H * RG10_COLORS)
    (hbound : ∀ v ∈ buf, v ≤ 65535)
    (hneq : (min_max_frame W H buf).1 < (min_max_frame W H buf).2) :
    ∃ out, normalize_frame W H buf = some out ∧ out.length = buf.length ∧
      (∀ j, j < 4 * W * H →
        out.getD j 0 = froundN (fmulN (buf.getD j 0 - (min_max_frame W H buf).1)
          (fdiv 1023 ((min_max_frame W H buf).2 - (min_max_frame W H buf).1)))) ∧
      (∀ j, j < 4 * W * H → out.getD j 0 ≤ 1023) ∧
      (∃ j, j < 4 * W * H ∧ out.getD j 0 = 0) ∧
      (∃ j, j < 4 * W * H ∧ out.getD j 0 = 1023) := by
  obtain ⟨hminle, hmaxge, ⟨jmin, hjmin, hjminv⟩, ⟨jmax, hjmax, hjmaxv⟩⟩ :=
    min_max_frame_spec W H hW hH buf hbound
  set mn := (min_max_frame W H buf).1 with hmn
  set mx := (min_max_frame W H buf).2 with hmx
  have hlen4 : buf.length = 4 * W * H := by
    rw [hlen]
    simp only [RG10_COLORS]
    ring
  have hmx65 : mx ≤ 65535 := by
    rw [← hjmaxv]
    exact getD_le_of_bound buf 65535 jmax hbound
  have hsample : ∀ j, j < 4 * W * H →
      normalize_sample mn mx (buf.getD j 0)
        = some (froundN (fmulN (buf.getD j 0 - mn) (fdiv 1023 (mx - mn)))) ∧
      froundN (fmulN (buf.getD j 0 - mn) (fdiv 1023 (mx - mn))) ≤ 1023 := by
    intro j hj
    obtain ⟨h1, h2, _, _⟩ :=
      normalize_sample_spec mn mx (buf.getD j 0) hneq (hminle j hj) (hmaxge j hj) hmx65
    exact ⟨h1, h2⟩
  have hnodup := nodup_norm_locs W H hW
  have hok : ∀ i ∈ norm_locs W H, i < buf.length ∧
      (normalize_sample mn mx (buf.getD i 0)).isSome := by
    intro i hi
    have hi4 : i < 4 * W * H := (mem_norm_locs W H i hW).mp hi
    refine ⟨by omega, ?_⟩
    rw [(hsample i hi4).1]
    rfl
  obtain ⟨out, hout, holen, hoget⟩ :=
    updAllO_sound (normalize_sample mn mx) (norm_locs W H) buf hnodup hok
  have hnf : normalize_frame W H buf = some out := by
    show updAllO (normalize_sample (min_max_frame W H buf).1 (min_max_frame W H buf).2)
      (norm_locs W H) buf = some out
    rw [← hmn, ← hmx]
    exact hout
  have hval : ∀ j, j < 4 * W * H →
      out.getD j 0 = froundN (fmulN (buf.getD j 0 - mn) (fdiv 1023 (mx - mn))) := by
    intro j hj
    rw [hoget j, if_pos ((mem_norm_locs W H j hW).mpr hj), (hsample j hj).1]
    rfl
  refine ⟨out, hnf, holen, hval, ?_, ?_, ?_⟩
  · intro j hj
    rw [hval j hj]
    exact (hsample j hj).2
  · refine ⟨jmin, hjmin, ?_⟩
    have h0 : normalize_sample mn mx (buf.getD jmin 0) = some 0 := by
      rw [hjminv]
      exact normalize_sample_min mn mx hneq
    rw [hoget jmin, if_pos ((mem_norm_locs W H jmin hW).mpr hjmin), h0]
    rfl
  · refine ⟨jmax, hjmax, ?_⟩
    obtain ⟨_, _, hmax1023, _⟩ :=
      normalize_sample_spec mn mx (buf.getD jmax 0) hneq (hminle jmax hjmax)
        (hmaxge jmax hjmax) hmx65
    rw [hval jmax hjmax, hmax1023 hjmaxv]

theorem min_max_frame_le (W H : Nat) (hW : 0 < W) (buf : List Nat) :
    (∀ j, j < 4 * W * H → (min_max_frame W H buf).1 ≤ buf.getD j 0) ∧
    (∀ j, j < 4 * W * H → buf.getD j 0 ≤ (min_max_frame W H buf).2) := by
  rw [min_max_frame_eq]
  dsimp only
  set vals := (mm_locs W H).map (fun i => buf.getD i 0) with hvals
  have hmem : ∀ j, j < 4 * W * H → buf.getD j 0 ∈ vals := by
    intro j hj
    rw [hvals]
    exact List.mem_map_of_mem _ ((mem_mm_locs W H j hW).mpr hj)
  exact ⟨fun j hj => foldl_min_le_mem vals 65535 _ (hmem j hj),
         fun j hj => foldl_max_ge_mem vals 0 _ (hmem j hj)⟩

set_option maxRecDepth 10000 in
/-- With `min = 0` and `max = 1023` the multiplier is exactly `1.0f` and
the per-sample rescale is the identity (checked over the whole domain). -/
theorem normalize_sample_id : ∀ v : Nat, v < 1024 → normalize_sample 0 1023 v = some v := by
  decide

/-- On a frame whose minimum is already 0 and maximum already 1023,
`normalize_frame` leaves the buffer unchanged. -/
theorem normalize_frame_identity (W H : Nat) (hW : 0 < W) (hH : 0 < H) (buf : List Nat)
    (hlen : buf.length = W * H * RG10_COLORS)
    (hmm : min_max_frame W H buf = (0, 1023)) :
    normalize_frame W H buf = some buf := by
  have hlen4 : buf.length = 4 * W * H := by
    rw [hlen]
    simp only [RG10_COLORS]
    ring
  have hub : ∀ j, j < 4 * W * H → buf.getD j 0 ≤ 1023 := by
    intro j hj
    have h := (min_max_frame_le W H hW buf).2 j hj
    rw [hmm] at h
    exact h
  have hok : ∀ i ∈ norm_locs W H, i < buf.length ∧
      (normalize_sample 0 1023 (buf.getD i 0)).isSome := by
    intro i hi
    have hi4 : i < 4 * W * H := (mem_norm_locs W H i hW).mp hi
    refine ⟨by omega, ?_⟩
    rw [normalize_sample_id _ (by have := hub i hi4; omega)]
    rfl
  obtain ⟨out, hout, holen, hoget⟩ :=
    updAllO_sound (normalize_sample 0 1023) (norm_locs W H) buf (nodup_norm_locs W H hW) hok
  have hnf : normalize_frame W H buf = some out := by
    show updAllO (normalize_sample (min_max_frame W H buf).1 (min_max_frame W H buf).2)
      (norm_locs W H) buf = some out
    rw [hmm]
    exact hout
  rw [hnf]
  congr 1
  apply List.ext_getElem (by omega)
  intro n h1 h2
  have hn4 : n < 4 * W * H := by omega
  have := hoget n
  rw [if_pos ((mem_norm_locs W H n hW).mpr hn4),
    normalize_sample_id _ (by have := hub n hn4; omega)] at this
  rw [← List.getD_eq_getElem out 0 h1, ← List.getD_eq_getElem buf 0 h2, this]
  rfl

/-- A buffer whose first `4*W*H` slots lie in `[0, 1023]` and attain both
`0` and `1023` has `min_max_frame` exactly `(0, 1023)`. -/
theorem min_max_frame_of_bounds (W H : Nat) (hW : 0 < W) (hH : 0 < H) (out : List Nat)
    (hub : ∀ j, j < 4 * W * H → out.getD j 0 ≤ 1023)
    (h0 : ∃ j, j < 4 * W * H ∧ out.getD j 0 = 0)
    (h1023 : ∃ j, j < 4 * W * H ∧ out.getD j 0 = 1023) :
    min_max_frame W H out = (0, 1023) := by
  rw [min_max_frame_eq]
  set vals := (mm_locs W H).map (fun i => out.getD i 0) with hvals
  have hmem : ∀ j, j < 4 * W * H → out.getD j 0 ∈ vals := by
    intro j hj
    rw [hvals]
    exact List.mem_map_of_mem _ ((mem_mm_locs W H j hW).mpr hj)
  obtain ⟨j0, hj0, hv0⟩ := h0
  obtain ⟨j1, hj1, hv1⟩ := h1023
  rw [Prod.mk.injEq]
  constructor
  · have hle : vals.foldl (fun m v => if v < m then v else m) 65535 ≤ out.getD j0 0 :=
      foldl_min_le_mem vals 65535 _ (hmem j0 hj0)
    omega
  · have hge : out.getD j1 0 ≤ vals.foldl (fun m v => if m < v then v else m) 0 :=
      foldl_max_ge_mem vals 0 _ (hmem j1 hj1)
    have hle : vals.foldl (fun m v => if m < v then v else m) 0 ≤ 1023 := by
      rcases foldl_max_attained vals 0 with h | h
      · omega
      · obtain ⟨i, hi, hv⟩ := List.mem_map.mp h
        have := hub i ((mem_mm_locs W H i hW).mp hi)
        omega
    omega

set_option maxRecDepth 10000 in
/-- Over the whole 10-bit domain the float scaling of the `NORM` macro
agrees with the exact truncating rescale `v * 255 / 1023` (checked over
the whole domain). -/
theorem NORM_val : ∀ v : Nat, v < 1024 → NORM v = some (v * 255 / 1023) := by
  decide

theorem debayer_writes_fst (W H : Nat) (buf : List Nat) :
    (debayer_writes W H buf).map Prod.fst = rgb_locs W H := by
  simp [debayer_writes, rgb_locs, List.map_flatMap]

/-- Membership in `debayer_writes`: each write is one of the three channel
stores of some pixel. -/
theorem mem_debayer_writes (W H : Nat) (buf : List Nat)
    (p : Nat × Option Nat) (hp : p ∈ debayer_writes W H buf) :
    ∃ y, y < H ∧ ∃ x, x < W ∧
      (p = (RGB_LOCATION W x y RGB_R, NORM (buf.getD (RG10_LOCATION W x y rg10_R) 0)) ∨
       p = (RGB_LOCATION W x y RGB_B, NORM (buf.getD (RG10_LOCATION W x y (rg10_B W)) 0)) ∨
       p = (RGB_LOCATION W x y RGB_G,
         NORM ((buf.getD (RG10_LOCATION W x y (rg10_Gb W)) 0 +
                buf.getD (RG10_LOCATION W x y rg10_Gr) 0) / 2))) := by
  simp only [debayer_writes, List.mem_flatMap, List.mem_range, List.mem_cons,
    List.not_mem_nil, or_false] at hp
  obtain ⟨y, hy, x, hx, hc⟩ := hp
  exact ⟨y, hy, x, hx, hc⟩

/-- Core characterization of `debayer` on a frame whose samples are all at
most 1023: every conversion is defined and each output pixel carries the
truncating rescale of its block's samples. -/
theorem debayer_spec (W H : Nat) (hW : 0 < W) (hH : 0 < H) (buf : List Nat)
    (hbound : ∀ v ∈ buf, v ≤ 1023) :
    ∃ img, debayer W H buf = some img ∧ img.length = W * H * RGB_COLORS ∧
      ∀ x y, x < W → y < H →
        img.getD (RGB_LOCATION W x y RGB_R) 0
            = buf.getD (RG10_LOCATION W x y rg10_R) 0 * 255 / 1023 ∧
        img.getD (RGB_LOCATION W x y RGB_B) 0
            = buf.getD (RG10_LOCATION W x y (rg10_B W)) 0 * 255 / 1023 ∧
        img.getD (RGB_LOCATION W x y RGB_G) 0
            = (buf.getD (RG10_LOCATION W x y (rg10_Gb W)) 0 +
               buf.getD (RG10_LOCATION W x y rg10_Gr) 0) / 2 * 255 / 1023 := by
  have hget1023 : ∀ j, buf.getD j 0 ≤ 1023 := fun j => getD_le_of_bound buf 1023 j hbound
  have hnodup : ((debayer_writes W H buf).map Prod.fst).Nodup := by
    rw [debayer_writes_fst]
    exact nodup_rgb_locs W H hW
  have hreplen : (List.replicate (W * H * RGB_COLORS) 0).length = W * H * RGB_COLORS :=
    List.length_replicate _ _
  have hlocbound : ∀ x y c, x < W → y < H → c < 3 →
      RGB_LOCATION W x y c < W * H * RGB_COLORS := by
    intro x y c hx hy hc
    rw [rgb_loc_eq]
    have := rgb_lt W H x y c hx hy hc
    have he : 3 * W * H = W * H * RGB_COLORS := by
      simp only [RGB_COLORS]
      ring
    omega
  have hok : ∀ p ∈ debayer_writes W H buf,
      p.1 < (List.replicate (W * H * RGB_COLORS) 0).length ∧ p.2.isSome := by
    intro p hp
    obtain ⟨y, hy, x, hx, hc⟩ := mem_debayer_writes W H buf p hp
    rw [hreplen]
    rcases hc with rfl | rfl | rfl
    · refine ⟨hlocbound x y RGB_R hx hy (by norm_num [RGB_R]), ?_⟩
      rw [NORM_val _ (by have := hget1023 (RG10_LOCATION W x y rg10_R); omega)]
      rfl
    · refine ⟨hlocbound x y RGB_B hx hy (by norm_num [RGB_B]), ?_⟩
      rw [NORM_val _ (by have := hget1023 (RG10_LOCATION W x y (rg10_B W)); omega)]
      rfl
    · refine ⟨hlocbound x y RGB_G hx hy (by norm_num [RGB_G]), ?_⟩
      have h1 := hget1023 (RG10_LOCATION W x y (rg10_Gb W))
      have h2 := hget1023 (RG10_LOCATION W x y rg10_Gr)
      rw [NORM_val _ (by omega)]
      rfl
  obtain ⟨img, himg, hilen, hgets, _⟩ :=
    setAllO_sound (debayer_writes W H buf) (List.replicate (W * H * RGB_COLORS) 0) hnodup hok
  refine ⟨img, himg, by rw [hilen, hreplen], ?_⟩
  intro x y hx hy
  have hmemy : y ∈ List.range H := List.mem_range.mpr hy
  have hmemx : x ∈ List.range W := List.mem_range.mpr hx
  have hmem : ∀ p ∈ [(RGB_LOCATION W x y RGB_R, NORM (buf.getD (RG10_LOCATION W x y rg10_R) 0)),
      (RGB_LOCATION W x y RGB_B, NORM (buf.getD (RG10_LOCATION W x y (rg10_B W)) 0)),
      (RGB_LOCATION W x y RGB_G,
        NORM ((buf.getD (RG10_LOCATION W x y (rg10_Gb W)) 0 +
               buf.getD (RG10_LOCATION W x y rg10_Gr) 0) / 2))],
      p ∈ debayer_writes W H buf := by
    intro p hp
    simp only [debayer_writes, List.mem_flatMap, List.mem_range]
    exact ⟨y, hy, x, hx, hp⟩
  refine ⟨?_, ?_, ?_⟩
  · have hg := hgets (RGB_LOCATION W x y RGB_R,
        NORM (buf.getD (RG10_LOCATION W x y rg10_R) 0))
      (hmem _ (List.mem_cons_self _ _))
    rw [hg, NORM_val _ (by have := hget1023 (RG10_LOCATION W x y rg10_R); omega)]
    rfl
  · have hg := hgets (RGB_LOCATION W x y RGB_B,
        NORM (buf.getD (RG10_LOCATION W x y (rg10_B W)) 0))
      (hmem _ (List.mem_cons_of_mem _ (List.mem_cons_self _ _)))
    rw [hg, NORM_val _ (by have := hget1023 (RG10_LOCATION W x y (rg10_B W)); omega)]
    rfl
  · have hg := hgets (RGB_LOCATION W x y RGB_G,
        NORM ((buf.getD (RG10_LOCATION W x y (rg10_Gb W)) 0 +
               buf.getD (RG10_LOCATION W x y rg10_Gr) 0) / 2))
      (hmem _ (List.mem_cons_of_mem _ (List.mem_cons_of_mem _ (List.mem_cons_self _ _))))
    rw [hg]
    have h1 := hget1023 (RG10_LOCATION W x y (rg10_Gb W))
    have h2 := hget1023 (RG10_LOCATION W x y rg10_Gr)
    rw [NORM_val _ (by omega)]
    rfl

theorem tga_header_eq (W H : Nat) :
    tga_header W H = [0, 0, 2, 0, 0, 0, 0, 0, 0, 0, 0, 0,
      W % 256, W / 256 % 256, H % 256, H / 256 % 256, 24, 32] := by
  have h1 : ∀ n : Nat, 255 &&& n = n % 256 := by
    intro n
    rw [Nat.and_comm]
    exact Nat.and_pow_two_sub_one_eq_mod n 8
  have h2 : ∀ n : Nat, n >>> 8 = n / 256 := fun n => Nat.shiftRight_eq_div_pow n 8
  show ((((((((List.replicate 18 0).set 2 2).set 12 (255 &&& W)).set 13
    (255 &&& (W >>> 8))).set 14 (255 &&& H)).set 15 (255 &&& (H >>> 8))).set 16
    24).set 17 32) = _
  rw [h1 W, h1 (W >>> 8), h1 H, h1 (H >>> 8), h2 W, h2 H]
  rfl

theorem tga_header_length (W H : Nat) : (tga_header W H).length = 18 := by
  rw [tga_header_eq]
  rfl

theorem mem_inner_mm (W x y n : Nat)
    (h : n ∈ [RG10_LOCATION W x y (rg10_Gb W), RG10_LOCATION W x y rg10_Gr,
              RG10_LOCATION W x y (rg10_B W), RG10_LOCATION W x y rg10_R]) :
    ∃ g b, g < 2 ∧ b < 2 ∧ n = 4 * W * y + (2 * W * g + (2 * x + b)) := by
  simp only [List.mem_cons, List.not_mem_nil, or_false] at h
  rcases h with rfl | rfl | rfl | rfl
  · exact ⟨1, 0, by omega, by omega, loc_Gb_eq W x y⟩
  · exact ⟨0, 1, by omega, by omega, loc_Gr_eq W x y⟩
  · exact ⟨1, 1, by omega, by omega, loc_B_eq W x y⟩
  · exact ⟨0, 0, by omega, by omega, loc_R_eq W x y⟩

theorem nodup_mm_locs (W H : Nat) (hW : 0 < W) : (mm_locs W H).Nodup := by
  rw [mm_locs, List.nodup_flatMap]
  constructor
  · intro y hy
    rw [List.nodup_flatMap]
    constructor
    · intro x hx
      rw [List.mem_range] at hx
      simp only [List.nodup_cons, List.mem_cons, List.not_mem_nil, or_false,
        List.nodup_nil, and_true, not_or, not_false_eq_true]
      rw [loc_Gb_eq, loc_Gr_eq, loc_B_eq, loc_R_eq]
      refine ⟨⟨?_, ?_, ?_⟩, ⟨?_, ?_⟩, ?_⟩ <;>
        · intro h
          have := canon_inj W hW hx (by omega) (by omega) hx (by omega) (by omega) h
          omega
    · rw [List.pairwise_iff_getElem]
      intro i j hi hj hij
      rw [List.getElem_range, List.getElem_range]
      intro n hn hn'
      rw [List.length_range] at hi hj
      obtain ⟨g, b, hg, hb, he⟩ := mem_inner_mm W i y n hn
      obtain ⟨g', b', hg', hb', he'⟩ := mem_inner_mm W j y n hn'
      have := canon_inj W hW hi hg hb hj hg' hb' (he.symm.trans he')
      omega
  · rw [List.pairwise_iff_getElem]
    intro i j hi hj hij
    rw [List.getElem_range, List.getElem_range]
    intro n hn hn'
    rw [List.length_range] at hi hj
    simp only [List.mem_flatMap, List.mem_range] at hn hn'
    obtain ⟨x, hx, hmem⟩ := hn
    obtain ⟨x', hx', hmem'⟩ := hn'
    obtain ⟨g, b, hg, hb, he⟩ := mem_inner_mm W x i n hmem
    obtain ⟨g', b', hg', hb', he'⟩ := mem_inner_mm W x' j n hmem'
    have := canon_inj W hW hx hg hb hx' hg' hb' (he.symm.trans he')
    omega

/-! ## Claims -/

/-- C1: for every sensor frame whose samples are all at most 1023, the
demosaicer produces, for each output pixel `(x, y)`,
`R = truncate(redSample * 255/1023)`, `B = truncate(blueSample * 255/1023)`
and `G = truncate(((greenInRedRow + greenInBlueRow) / 2) * 255/1023)`,
the division by 2 being truncating integer division performed before
scaling, and the final 8-bit conversion truncating. -/
theorem claim_C1 (W H : Nat) (hW : 0 < W) (hH : 0 < H) (buf : List Nat)
    (hbound : ∀ v ∈ buf, v ≤ 1023) (x y : Nat) (hx : x < W) (hy : y < H) :
    ∃ img, debayer W H buf = some img ∧
      img.getD (RGB_LOCATION W x y RGB_R) 0
          = buf.getD (RG10_LOCATION W x y rg10_R) 0 * 255 / 1023 ∧
      img.getD (RGB_LOCATION W x y RGB_B) 0
          = buf.getD (RG10_LOCATION W x y (rg10_B W)) 0 * 255 / 1023 ∧
      img.getD (RGB_LOCATION W x y RGB_G) 0
          = (buf.getD (RG10_LOCATION W x y (rg10_Gb W)) 0 +
             buf.getD (RG10_LOCATION W x y rg10_Gr) 0) / 2 * 255 / 1023 := by
  obtain ⟨img, h1, _, h3⟩ := debayer_spec W H hW hH buf hbound
  exact ⟨img, h1, h3 x y hx hy⟩

theorem claim_C1_witness :
    (∀ v ∈ [1023, 0, 1023, 0], v ≤ 1023) ∧
    (∃ img, debayer 1 1 [1023, 0, 1023, 0] = some img ∧
      img.getD (RGB_LOCATION 1 0 0 RGB_R) 0
          = [1023, 0, 1023, 0].getD (RG10_LOCATION 1 0 0 rg10_R) 0 * 255 / 1023 ∧
      img.getD (RGB_LOCATION 1 0 0 RGB_B) 0
          = [1023, 0, 1023, 0].getD (RG10_LOCATION 1 0 0 (rg10_B 1)) 0 * 255 / 1023 ∧
      img.getD (RGB_LOCATION 1 0 0 RGB_G) 0
          = ([1023, 0, 1023, 0].getD (RG10_LOCATION 1 0 0 (rg10_Gb 1)) 0 +
             [1023, 0, 1023, 0].getD (RG10_LOCATION 1 0 0 rg10_Gr) 0) / 2 * 255 / 1023) :=
  ⟨by decide, claim_C1 1 1 (by decide) (by decide) [1023, 0, 1023, 0] (by decide) 0 0
    (by decide) (by decide)⟩

/-- C6: for every sensor frame in which every sample equals one constant
`v ≤ 1023`, the demosaiced output is a uniform RGB image in which all
three channels of every output pixel equal `truncate(v * 255/1023)`.
(Running normalization on such a frame is always the degenerate
`max = min` case, which the claim excludes, so the pipeline here is the
demosaicer alone.) -/
theorem claim_C6 (W H : Nat) (hW : 0 < W) (hH : 0 < H) (buf : List Nat) (v : Nat)
    (hv : v ≤ 1023) (hlen : buf.length = W * H * RG10_COLORS)
    (huni : ∀ u ∈ buf, u = v) :
    ∃ img, debayer W H buf = some img ∧
      ∀ x y c, x < W → y < H → c < 3 →
        img.getD (RGB_LOCATION W x y c) 0 = v * 255 / 1023 := by
  have hlen4 : buf.length = 4 * W * H := by
    rw [hlen]
    simp only [RG10_COLORS]
    ring
  have hbound : ∀ u ∈ buf, u ≤ 1023 := fun u hu => (huni u hu) ▸ hv
  have hget : ∀ j, j < 4 * W * H → buf.getD j 0 = v := by
    intro j hj
    have hjl : j < buf.length := by omega
    rw [List.getD_eq_getElem buf 0 hjl]
    exact huni _ (List.getElem_mem hjl)
  obtain ⟨img, h1, _, h3⟩ := debayer_spec W H hW hH buf hbound
  refine ⟨img, h1, ?_⟩
  intro x y c hx hy hc
  obtain ⟨hR, hB, hG⟩ := h3 x y hx hy
  have hlocR : RG10_LOCATION W x y rg10_R < 4 * W * H := by
    rw [loc_R_eq]
    exact loc_lt W H x y 0 0 hx hy (by omega) (by omega)
  have hlocGr : RG10_LOCATION W x y rg10_Gr < 4 * W * H := by
    rw [loc_Gr_eq]
    exact loc_lt W H x y 0 1 hx hy (by omega) (by omega)
  have hlocGb : RG10_LOCATION W x y (rg10_Gb W) < 4 * W * H := by
    rw [loc_Gb_eq]
    exact loc_lt W H x y 1 0 hx hy (by omega) (by omega)
  have hlocB : RG10_LOCATION W x y (rg10_B W) < 4 * W * H := by
    rw [loc_B_eq]
    exact loc_lt W H x y 1 1 hx hy (by omega) (by omega)
  interval_cases c
  · rw [show RGB_B = 0 from rfl] at hB
    rw [hB, hget _ hlocB]
  · rw [show RGB_G = 1 from rfl] at hG
    rw [hG, hget _ hlocGb, hget _ hlocGr]
    have he2 : (v + v) / 2 = v := by omega
    rw [he2]
  · rw [show RGB_R = 2 from rfl] at hR
    rw [hR, hget _ hlocR]

theorem claim_C6_witness :
    (511 ≤ 1023 ∧ ([511, 511, 511, 511] : List Nat).length = 1 * 1 * RG10_COLORS ∧
      (∀ u ∈ [511, 511, 511, 511], u = 511)) ∧
    (∃ img, debayer 1 1 [511, 511, 511, 511] = some img ∧
      ∀ x y c, x < 1 → y < 1 → c < 3 →
        img.getD (RGB_LOCATION 1 x y c) 0 = 511 * 255 / 1023) :=
  ⟨⟨by decide, by decide, by decide⟩,
   claim_C6 1 1 (by decide) (by decide) [511, 511, 511, 511] 511 (by decide) (by decide)
     (by decide)⟩

/-- C8: perturbing only the red-position sample of one mosaic block
changes at most the R channel of the corresponding output pixel: the G and
B channels of that pixel and all three channels of every other pixel are
identical between the two demosaiced outputs. -/
theorem claim_C8 (W H : Nat) (hW : 0 < W) (hH : 0 < H) (buf : List Nat)
    (hbound : ∀ v ∈ buf, v ≤ 1023) (x0 y0 : Nat) (hx0 : x0 < W) (hy0 : y0 < H)
    (a : Nat) (ha : a ≤ 1023) :
    ∃ img img', debayer W H buf = some img ∧
      debayer W H (buf.set (RG10_LOCATION W x0 y0 rg10_R) a) = some img' ∧
      ∀ x y c, x < W → y < H → c < 3 → ¬(x = x0 ∧ y = y0 ∧ c = RGB_R) →
        img'.getD (RGB_LOCATION W x y c) 0 = img.getD (RGB_LOCATION W x y c) 0 := by
  set buf' := buf.set (RG10_LOCATION W x0 y0 rg10_R) a with hbuf'
  have hbound' : ∀ v ∈ buf', v ≤ 1023 := by
    intro v hv
    rcases List.mem_or_eq_of_mem_set hv with h | rfl
    · exact hbound v h
    · exact ha
  obtain ⟨img, h1, _, h3⟩ := debayer_spec W H hW hH buf hbound
  obtain ⟨img', h1', _, h3'⟩ := debayer_spec W H hW hH buf' hbound'
  refine ⟨img, img', h1, h1', ?_⟩
  intro x y c hx hy hc hne
  have hset : ∀ coff, RG10_LOCATION W x0 y0 rg10_R ≠ RG10_LOCATION W x y coff →
      buf'.getD (RG10_LOCATION W x y coff) 0 = buf.getD (RG10_LOCATION W x y coff) 0 := by
    intro coff hcoff
    exact getD_set_ne buf _ _ a 0 hcoff
  obtain ⟨hR, hB, hG⟩ := h3 x y hx hy
  obtain ⟨hR', hB', hG'⟩ := h3' x y hx hy
  have hne_gb : RG10_LOCATION W x0 y0 rg10_R ≠ RG10_LOCATION W x y (rg10_Gb W) := by
    rw [loc_R_eq, loc_Gb_eq]
    intro h
    have := canon_inj W hW hx0 (by omega) (by omega) hx (by omega) (by omega) h
    omega
  have hne_gr : RG10_LOCATION W x0 y0 rg10_R ≠ RG10_LOCATION W x y rg10_Gr := by
    rw [loc_R_eq, loc_Gr_eq]
    intro h
    have := canon_inj W hW hx0 (by omega) (by omega) hx (by omega) (by omega) h
    omega
  have hne_b : RG10_LOCATION W x0 y0 rg10_R ≠ RG10_LOCATION W x y (rg10_B W) := by
    rw [loc_R_eq, loc_B_eq]
    intro h
    have := canon_inj W hW hx0 (by omega) (by omega) hx (by omega) (by omega) h
    omega
  interval_cases c
  · rw [show RGB_B = 0 from rfl] at hB hB'
    rw [hB, hB', hset _ hne_b]
  · rw [show RGB_G = 1 from rfl] at hG hG'
    rw [hG, hG', hset _ hne_gb, hset _ hne_gr]
  · rw [show RGB_R = 2 from rfl] at hR hR'
    have hxy : ¬(x = x0 ∧ y = y0) := by
      intro hh
      exact hne ⟨hh.1, hh.2, rfl⟩
    have hne_r : RG10_LOCATION W x0 y0 rg10_R ≠ RG10_LOCATION W x y rg10_R := by
      rw [loc_R_eq, loc_R_eq]
      intro h
      have := canon_inj W hW hx0 (by omega) (by omega) hx (by omega) (by omega) h
      exact hxy ⟨this.2.2.1.symm, this.1.symm⟩
    rw [hR, hR', hset _ hne_r]

theorem claim_C8_witness :
    (∀ v ∈ [7, 8, 9, 10], v ≤ 1023) ∧
    (∃ img img', debayer 1 1 [7, 8, 9, 10] = some img ∧
      debayer 1 1 ([7, 8, 9, 10].set (RG10_LOCATION 1 0 0 rg10_R) 1000) = some img' ∧
      ∀ x y c, x < 1 → y < 1 → c < 3 → ¬(x = 0 ∧ y = 0 ∧ c = RGB_R) →
        img'.getD (RGB_LOCATION 1 x y c) 0 = img.getD (RGB_LOCATION 1 x y c) 0) :=
  ⟨by decide, claim_C8 1 1 (by decide) (by decide) [7, 8, 9, 10] (by decide) 0 0
    (by decide) (by decide) 1000 (by decide)⟩

/-- C4: for every RGB image of the configured width and height, the sink
writes exactly an 18-byte header in which byte 2 is 2, bytes 12-13 are the
width little-endian, bytes 14-15 the height little-endian, byte 16 is 24,
byte 17 is 32, every other header byte is 0, followed immediately by the
`width*height` pixels of 3 bytes each with no padding or footer;
re-parsing only the header recovers the width and height exactly. -/
theorem claim_C4 (W H : Nat) (hW : W ≤ 65535) (hH : H ≤ 65535) (img : List Nat)
    (hlen : img.length = W * H * RGB_COLORS) :
    (write_tga W H img).length = 18 + W * H * RGB_COLORS ∧
    (write_tga W H img).getD 2 0 = 2 ∧
    (write_tga W H img).getD 12 0 = W % 256 ∧
    (write_tga W H img).getD 13 0 = W / 256 % 256 ∧
    (write_tga W H img).getD 14 0 = H % 256 ∧
    (write_tga W H img).getD 15 0 = H / 256 % 256 ∧
    (write_tga W H img).getD 16 0 = 24 ∧
    (write_tga W H img).getD 17 0 = 32 ∧
    (∀ k, k < 18 → k ≠ 2 → k ≠ 12 → k ≠ 13 → k ≠ 14 → k ≠ 15 → k ≠ 16 → k ≠ 17 →
      (write_tga W H img).getD k 0 = 0) ∧
    parse_tga_width (write_tga W H img) = W ∧
    parse_tga_height (write_tga W H img) = H ∧
    (write_tga W H img).drop 18 = img := by
  have hdlen : (tga_header W H).length = 18 := tga_header_length W H
  have happ : ∀ k, k < 18 → (write_tga W H img).getD k 0 = (tga_header W H).getD k 0 := by
    intro k hk
    unfold write_tga
    exact List.getD_append _ _ _ _ (by omega)
  have hdr := tga_header_eq W H
  refine ⟨?_, ?_, ?_, ?_, ?_, ?_, ?_, ?_, ?_, ?_, ?_, ?_⟩
  · unfold write_tga
    rw [List.length_append, hdlen, hlen]
  · rw [happ 2 (by omega), hdr]
    rfl
  · rw [happ 12 (by omega), hdr]
    rfl
  · rw [happ 13 (by omega), hdr]
    rfl
  · rw [happ 14 (by omega), hdr]
    rfl
  · rw [happ 15 (by omega), hdr]
    rfl
  · rw [happ 16 (by omega), hdr]
    rfl
  · rw [happ 17 (by omega), hdr]
    rfl
  · intro k hk h2 h12 h13 h14 h15 h16 h17
    rw [happ k hk, hdr]
    interval_cases k <;> first | rfl | omega
  · unfold parse_tga_width
    rw [happ 12 (by omega), happ 13 (by omega), hdr]
    show W % 256 + 256 * (W / 256 % 256) = W
    omega
  · unfold parse_tga_height
    rw [happ 14 (by omega), happ 15 (by omega), hdr]
    show H % 256 + 256 * (H / 256 % 256) = H
    omega
  · unfold write_tga
    rw [show (18:Nat) = (tga_header W H).length from hdlen.symm]
    exact List.drop_left _ _

theorem claim_C4_witness :
    (1920 ≤ 65535 ∧ 1080 ≤ 65535 ∧
      (List.replicate (1920 * 1080 * RGB_COLORS) 0).length = 1920 * 1080 * RGB_COLORS) ∧
    parse_tga_width (write_tga 1920 1080 (List.replicate (1920 * 1080 * RGB_COLORS) 0)) = 1920 ∧
    parse_tga_height (write_tga 1920 1080 (List.replicate (1920 * 1080 * RGB_COLORS) 0)) = 1080 :=
  ⟨⟨by decide, by decide, List.length_replicate _ _⟩,
   (claim_C4 1920 1080 (by decide) (by decide) _ (List.length_replicate _ _)).2.2.2.2.2.2.2.2.2.1,
   (claim_C4 1920 1080 (by decide) (by decide) _ (List.length_replicate _ _)).2.2.2.2.2.2.2.2.2.2.1⟩

/-- C2 (counterexample): on the one-block frame `[0, 7273, 6786, 0]`
(minimum 0, maximum 7273) the code rescales the sample 6786 to 955, while
`(6786 - 0) * 1023 / (7273 - 0) = 954.49993...` rounds to 954 under any
round-to-nearest tie convention (the exact value is not a tie).  The
single-precision computation therefore differs from the claimed exact
round-to-nearest formula. -/
theorem claim_C2_counterexample :
    normalize_frame 1 1 [0, 7273, 6786, 0] = some [0, 1023, 955, 0] ∧
    min_max_frame 1 1 [0, 7273, 6786, 0] = (0, 7273) ∧
    (2 * 1023 * 6786 + 7273) / (2 * 7273) = 954 ∧
    (2 * (1023 * 6786)) % (2 * 7273) ≠ 7273 ∧
    (955 : Nat) ≠ 954 :=
  ⟨by decide, by decide, by decide, by decide, by decide⟩

/-- C2 (amended): for every sensor frame with `max > min`, normalization
replaces every sample `v` in place with
`round(fl32((v - min) * fl32(1023 / (max - min))))` — the single-precision
computation of the reference code, with `round` half away from zero.  This
differs from the exact `round((v - min) * 1023/(max - min))` by at most 1.
Consequently every sample lies in `[0, 1023]`, some sample equals 0 and
some sample equals 1023. -/
theorem claim_C2_amended (W H : Nat) (hW : 0 < W) (hH : 0 < H) (buf : List Nat)
    (hlen : buf.length = W * H * RG10_COLORS)
    (hbound : ∀ v ∈ buf, v ≤ 65535)
    (hneq : (min_max_frame W H buf).1 < (min_max_frame W H buf).2) :
    ∃ out, normalize_frame W H buf = some out ∧ out.length = buf.length ∧
      (∀ j, j < 4 * W * H →
        out.getD j 0 = froundN (fmulN (buf.getD j 0 - (min_max_frame W H buf).1)
          (fdiv 1023 ((min_max_frame W H buf).2 - (min_max_frame W H buf).1))) ∧
        out.getD j 0 ≤ (2 * 1023 * (buf.getD j 0 - (min_max_frame W H buf).1) +
            ((min_max_frame W H buf).2 - (min_max_frame W H buf).1)) /
            (2 * ((min_max_frame W H buf).2 - (min_max_frame W H buf).1)) + 1 ∧
        (2 * 1023 * (buf.getD j 0 - (min_max_frame W H buf).1) +
            ((min_max_frame W H buf).2 - (min_max_frame W H buf).1)) /
            (2 * ((min_max_frame W H buf).2 - (min_max_frame W H buf).1)) ≤
          out.getD j 0 + 1) ∧
      (∀ j, j < 4 * W * H → out.getD j 0 ≤ 1023) ∧
      (∃ j, j < 4 * W * H ∧ out.getD j 0 = 0) ∧
      (∃ j, j < 4 * W * H ∧ out.getD j 0 = 1023) := by
  obtain ⟨out, h1, h2, h3, h4, h5, h6⟩ :=
    normalize_frame_spec W H hW hH buf hlen hbound hneq
  obtain ⟨hminle, hmaxge, _, ⟨jmax, hjmax, hjmaxv⟩⟩ :=
    min_max_frame_spec W H hW hH buf hbound
  have hmx65 : (min_max_frame W H buf).2 ≤ 65535 := by
    rw [← hjmaxv]
    exact getD_le_of_bound buf 65535 jmax hbound
  refine ⟨out, h1, h2, ?_, h4, h5, h6⟩
  intro j hj
  obtain ⟨_, _, _, hpm1, hpm2⟩ :=
    normalize_sample_spec (min_max_frame W H buf).1 (min_max_frame W H buf).2
      (buf.getD j 0) hneq (hminle j hj) (hmaxge j hj) hmx65
  exact ⟨h3 j hj, by rw [h3 j hj]; exact hpm1, by rw [h3 j hj]; exact hpm2⟩

theorem claim_C2_amended_witness :
    (([0, 7273, 6786, 0] : List Nat).length = 1 * 1 * RG10_COLORS ∧
      (∀ v ∈ [0, 7273, 6786, 0], v ≤ 65535) ∧
      (min_max_frame 1 1 [0, 7273, 6786, 0]).1 < (min_max_frame 1 1 [0, 7273, 6786, 0]).2) ∧
    (∃ out, normalize_frame 1 1 [0, 7273, 6786, 0] = some out ∧
      out.length = ([0, 7273, 6786, 0] : List Nat).length ∧
      (∀ j, j < 4 * 1 * 1 →
        out.getD j 0 = froundN (fmulN ([0, 7273, 6786, 0].getD j 0 -
            (min_max_frame 1 1 [0, 7273, 6786, 0]).1)
          (fdiv 1023 ((min_max_frame 1 1 [0, 7273, 6786, 0]).2 -
            (min_max_frame 1 1 [0, 7273, 6786, 0]).1))) ∧
        out.getD j 0 ≤ (2 * 1023 * ([0, 7273, 6786, 0].getD j 0 -
            (min_max_frame 1 1 [0, 7273, 6786, 0]).1) +
            ((min_max_frame 1 1 [0, 7273, 6786, 0]).2 -
              (min_max_frame 1 1 [0, 7273, 6786, 0]).1)) /
            (2 * ((min_max_frame 1 1 [0, 7273, 6786, 0]).2 -
              (min_max_frame 1 1 [0, 7273, 6786, 0]).1)) + 1 ∧
        (2 * 1023 * ([0, 7273, 6786, 0].getD j 0 -
            (min_max_frame 1 1 [0, 7273, 6786, 0]).1) +
            ((min_max_frame 1 1 [0, 7273, 6786, 0]).2 -
              (min_max_frame 1 1 [0, 7273, 6786, 0]).1)) /
            (2 * ((min_max_frame 1 1 [0, 7273, 6786, 0]).2 -
              (min_max_frame 1 1 [0, 7273, 6786, 0]).1)) ≤
          out.getD j 0 + 1) ∧
      (∀ j, j < 4 * 1 * 1 → out.getD j 0 ≤ 1023) ∧
      (∃ j, j < 4 * 1 * 1 ∧ out.getD j 0 = 0) ∧
      (∃ j, j < 4 * 1 * 1 ∧ out.getD j 0 = 1023)) :=
  ⟨⟨by decide, by decide, by decide⟩,
   claim_C2_amended 1 1 (by decide) (by decide) [0, 7273, 6786, 0] (by decide) (by decide)
     (by decide)⟩

/-- With a zero divisor every per-sample rescale is undefined: the
multiplier is `1023.0f / 0.0f = +inf`, the product is `inf` (or NaN at the
minimum sample) and the integer conversion of either is undefined. -/
theorem normalize_sample_none_of_degenerate (mn mx v : Nat) (h : mx ≤ mn) :
    normalize_sample mn mx v = none := by
  unfold normalize_sample
  rw [show mx - mn = 0 from by omega]
  rw [show fdivE MAX_RG10 0 = EF32.inf from by norm_num [fdivE, MAX_RG10]]
  by_cases hv : v - mn = 0
  · rw [show fmulNE (v - mn) EF32.inf = EF32.nan from by rw [hv]; rfl]
    rfl
  · rw [show fmulNE (v - mn) EF32.inf = EF32.inf from by
      unfold fmulNE
      rw [if_neg hv]]
    rfl

theorem updAllO_none_of_all (g : Nat → Option Nat) (hg : ∀ v, g v = none)
    (idxs : List Nat) (buf : List Nat) (hne : idxs ≠ []) :
    updAllO g idxs buf = none := by
  cases idxs with
  | nil => exact absurd rfl hne
  | cons i rest => exact updAllO_cons_none g i rest buf (hg _)

/-- C3: on a frame whose samples are all equal, `normalize_frame` divides
by zero, multiplies by the resulting infinity and converts the resulting
NaN/inf to `uint16_t` — undefined behaviour, modelled as `none`.  The code
has no degenerate-case path, contradicting the claim. -/
theorem claim_C3 (W H : Nat) (hW : 0 < W) (hH : 0 < H) (buf : List Nat)
    (hlen : buf.length = W * H * RG10_COLORS) (k : Nat) (hk : k ≤ 65535)
    (huni : ∀ u ∈ buf, u = k) :
    normalize_frame W H buf = none := by
  have hne : norm_locs W H ≠ [] := by
    refine List.ne_nil_of_mem (a := RG10_LOCATION W 0 0 rg10_R) ?_
    rw [mem_norm_locs W H _ hW, loc_R_eq]
    have := loc_lt W H 0 0 0 0 hW hH (by omega) (by omega)
    omega
  have hbound : ∀ u ∈ buf, u ≤ 65535 := fun u hu => (huni u hu) ▸ hk
  have hlen4 : buf.length = 4 * W * H := by
    rw [hlen]
    simp only [RG10_COLORS]
    ring
  have hget : ∀ j, j < 4 * W * H → buf.getD j 0 = k := by
    intro j hj
    have hjl : j < buf.length := by omega
    rw [List.getD_eq_getElem buf 0 hjl]
    exact huni _ (List.getElem_mem hjl)
  obtain ⟨_, hmaxge, ⟨j0, hj0, hv0⟩, ⟨j1, hj1, hv1⟩⟩ :=
    min_max_frame_spec W H hW hH buf hbound
  have hmn : (min_max_frame W H buf).1 = k := by rw [← hv0, hget j0 hj0]
  have hmx : (min_max_frame W H buf).2 = k := by rw [← hv1, hget j1 hj1]
  show updAllO (normalize_sample (min_max_frame W H buf).1 (min_max_frame W H buf).2)
    (norm_locs W H) buf = none
  exact updAllO_none_of_all _
    (fun v => normalize_sample_none_of_degenerate _ _ v (by omega)) _ buf hne

theorem claim_C3_witness :
    (([5, 5, 5, 5] : List Nat).length = 1 * 1 * RG10_COLORS ∧ 5 ≤ 65535 ∧
      (∀ u ∈ [5, 5, 5, 5], u = 5)) ∧
    normalize_frame 1 1 [5, 5, 5, 5] = none :=
  ⟨⟨by decide, by decide, by decide⟩,
   claim_C3 1 1 (by decide) (by decide) [5, 5, 5, 5] (by decide) 5 (by decide) (by decide)⟩

/-- C5: the end-to-end scenario on the one-block frame
`R=1023, Gr=0, Gb=1023, B=0`: normalization is a no-op (min 0, max 1023),
the demosaiced pixel is `R=255, G=127, B=0`, and the written file has a
header reporting width 1 and height 1 followed by the three payload bytes
`[0, 127, 255]` in blue-green-red order. -/
theorem claim_C5 :
    normalize_frame 1 1 [1023, 0, 1023, 0] = some [1023, 0, 1023, 0] ∧
    debayer 1 1 [1023, 0, 1023, 0] = some [0, 127, 255] ∧
    [0, 127, 255].getD RGB_R 0 = 255 ∧
    [0, 127, 255].getD RGB_G 0 = 127 ∧
    [0, 127, 255].getD RGB_B 0 = 0 ∧
    main_model 1 1 true true [1023, 0, 1023, 0] =
      some ⟨0, [], some ([0, 0, 2, 0, 0, 0, 0, 0, 0, 0, 0, 0, 1, 0, 1, 0, 24, 32] ++
        [0, 127, 255])⟩ ∧
    parse_tga_width (write_tga 1 1 [0, 127, 255]) = 1 ∧
    parse_tga_height (write_tga 1 1 [0, 127, 255]) = 1 ∧
    (write_tga 1 1 [0, 127, 255]).drop 18 = [0, 127, 255] :=
  ⟨by decide, by decide, by decide, by decide, by decide, by decide, by decide, by decide,
   by decide⟩

/-- C7: normalization is idempotent.  (i) When the frame's minimum is
already 0 and its maximum already 1023, one application is the identity on
every sample, so applying it twice equals applying it once.  (ii)
Re-applying normalization to the output of a (non-degenerate)
normalization changes no sample at all — in particular no sample changes
by more than 1. -/
theorem claim_C7 (W H : Nat) (hW : 0 < W) (hH : 0 < H) :
    (∀ buf, buf.length = W * H * RG10_COLORS → min_max_frame W H buf = (0, 1023) →
      normalize_frame W H buf = some buf) ∧
    (∀ buf out, buf.length = W * H * RG10_COLORS → (∀ v ∈ buf, v ≤ 65535) →
      (min_max_frame W H buf).1 < (min_max_frame W H buf).2 →
      normalize_frame W H buf = some out →
      normalize_frame W H out = some out) := by
  constructor
  · exact fun buf hlen hmm => normalize_frame_identity W H hW hH buf hlen hmm
  · intro buf out hlen hbound hneq hout
    obtain ⟨out', h1, h2, _, h4, h5, h6⟩ := normalize_frame_spec W H hW hH buf hlen hbound hneq
    have heq : out = out' := Option.some_injective _ (hout.symm.trans h1)
    subst heq
    have holen : out.length = W * H * RG10_COLORS := by rw [h2, hlen]
    exact normalize_frame_identity W H hW hH out holen
      (min_max_frame_of_bounds W H hW hH out h4 h5 h6)

theorem claim_C7_witness :
    (([0, 1023, 5, 7] : List Nat).length = 1 * 1 * RG10_COLORS ∧
      min_max_frame 1 1 [0, 1023, 5, 7] = (0, 1023)) ∧
    normalize_frame 1 1 [0, 1023, 5, 7] = some [0, 1023, 5, 7] ∧
    normalize_frame 1 1 [0, 1023, 955, 0] = some [0, 1023, 955, 0] :=
  ⟨⟨by decide, by decide⟩,
   (claim_C7 1 1 (by decide) (by decide)).1 [0, 1023, 5, 7] (by decide) (by decide),
   (claim_C7 1 1 (by decide) (by decide)).2 [0, 7273, 6786, 0] [0, 1023, 955, 0]
     (by decide) (by decide) (by decide) (by decide)⟩

/-- C9: the process exits 0 on success; if the input cannot be opened it
writes a diagnostic to the error stream and terminates immediately with
exit code -1 regardless of the rest of the input (no pipeline work); if
the output cannot be opened it writes a diagnostic and terminates with -1
and no file is produced. -/
theorem claim_C9 (W H : Nat) (raw nbuf img : List Nat) :
    (∀ b raw', main_model W H false b raw'
        = some ⟨-1, ["Unable to open file for reading."], none⟩) ∧
    (normalize_frame W H raw = some nbuf → debayer W H nbuf = some img →
      main_model W H true false raw
        = some ⟨-1, ["Unable to open file for writing."], none⟩) ∧
    (normalize_frame W H raw = some nbuf → debayer W H nbuf = some img →
      main_model W H true true raw = some ⟨0, [], some (write_tga W H img)⟩) := by
  have e1 : ∀ (b : Bool) (raw' : List Nat), main_model W H true b raw'
      = match normalize_frame W H raw' with
        | none => none
        | some nb =>
          match debayer W H nb with
          | none => none
          | some image =>
            match write_tga_file b W H image with
            | .error e => some ⟨-1, [e], none⟩
            | .ok bytes => some ⟨0, [], some bytes⟩ := fun b raw' => rfl
  refine ⟨fun b raw' => rfl, ?_, ?_⟩
  · intro h1 h2
    rw [e1]
    simp only [h1, h2]
    rfl
  · intro h1 h2
    rw [e1]
    simp only [h1, h2]
    rfl

theorem claim_C9_witness :
    main_model 1 1 false true [9, 9, 9, 9]
        = some ⟨-1, ["Unable to open file for reading."], none⟩ ∧
    main_model 1 1 true false [1023, 0, 1023, 0]
        = some ⟨-1, ["Unable to open file for writing."], none⟩ ∧
    main_model 1 1 true true [1023, 0, 1023, 0]
        = some ⟨0, [], some (write_tga 1 1 [0, 127, 255])⟩ :=
  ⟨(claim_C9 1 1 [1023, 0, 1023, 0] [1023, 0, 1023, 0] [0, 127, 255]).1 true [9, 9, 9, 9],
   (claim_C9 1 1 [1023, 0, 1023, 0] [1023, 0, 1023, 0] [0, 127, 255]).2.1
     (by decide) (by decide),
   (claim_C9 1 1 [1023, 0, 1023, 0] [1023, 0, 1023, 0] [0, 127, 255]).2.2
     (by decide) (by decide)⟩

/-- C10: at the configured 1920x1080 geometry every buffer index generated
by the passes is in bounds; the input sample indices of the min/max scan
and of the normalization pass each cover the `1920*1080*4` sample slots
exactly once (no duplicates, full coverage); the output indices are in
bounds and pairwise distinct across all `(x, y, channel)`. -/
theorem claim_C10 :
    (∀ x y c, x < 1920 → y < 1080 → (c = 0 ∨ c = 1 ∨ c = 2 * 1920 ∨ c = 2 * 1920 + 1) →
      RG10_LOCATION 1920 x y c < 1920 * 1080 * 4) ∧
    ((mm_locs 1920 1080).Nodup ∧ ∀ n, n ∈ mm_locs 1920 1080 ↔ n < 1920 * 1080 * 4) ∧
    ((norm_locs 1920 1080).Nodup ∧ ∀ n, n ∈ norm_locs 1920 1080 ↔ n < 1920 * 1080 * 4) ∧
    (∀ x y c, x < 1920 → y < 1080 → c < 3 →
      RGB_LOCATION 1920 x y c < 1920 * 1080 * 3) ∧
    (∀ x y c x' y' c', x < 1920 → y < 1080 → c < 3 → x' < 1920 → y' < 1080 → c' < 3 →
      RGB_LOCATION 1920 x y c = RGB_LOCATION 1920 x' y' c' →
      x = x' ∧ y = y' ∧ c = c') := by
  refine ⟨?_, ⟨nodup_mm_locs 1920 1080 (by norm_num), ?_⟩,
    ⟨nodup_norm_locs 1920 1080 (by norm_num), ?_⟩, ?_, ?_⟩
  · intro x y c hx hy hc
    simp only [RG10_LOCATION, RG10_COLORS, RG10_COLOR_SIZE]
    omega
  · intro n
    have h := mem_mm_locs 1920 1080 n (by norm_num)
    rw [show (1920 * 1080 * 4 : Nat) = 4 * 1920 * 1080 from by norm_num]
    exact h
  · intro n
    have h := mem_norm_locs 1920 1080 n (by norm_num)
    rw [show (1920 * 1080 * 4 : Nat) = 4 * 1920 * 1080 from by norm_num]
    exact h
  · intro x y c hx hy hc
    simp only [RGB_LOCATION, RGB_COLORS]
    omega
  · intro x y c x' y' c' hx hy hc hx' hy' hc' h
    simp only [RGB_LOCATION, RGB_COLORS] at h
    omega

theorem claim_C10_witness :
    ((0:Nat) < 1920 ∧ (0:Nat) < 1080) ∧
    RG10_LOCATION 1920 0 0 0 < 1920 * 1080 * 4 ∧
    RGB_LOCATION 1920 1919 1079 2 < 1920 * 1080 * 3 :=
  ⟨⟨by decide, by decide⟩,
   claim_C10.1 0 0 0 (by decide) (by decide) (Or.inl rfl),
   claim_C10.2.2.2.1 1919 1079 2 (by decide) (by decide) (by decide)⟩
